import Mathlib

/-!
# Verification of the `findgroups` spatial-clustering engine

Shallow embedding of `src/findgroups/groupfinder.c` (the POSIX build; the
Windows build `groupfinder_win.c` is line-for-line the same engine).  Machine
integers are embedded as unbounded `Int`/`Nat`; where C performs 64-bit
arithmetic that can wrap, the wrap is modelled explicitly (`wrap64`,
`to_int32`).  C's `/` on signed integers truncates toward zero, which is
`Int.tdiv`.  Floating-point centroid arithmetic is modelled by exact rational
arithmetic, as licensed by §4.6 of the specification ("Exact arithmetic is not
required"); the executable enumeration uses the equivalent denominator-cleared
integer form, and the rational form is stated separately and proved
equivalent.
-/

namespace GroupFinder

/-- A stored point: the two signed 32-bit coordinates `(x, z)` of
`StructureCompact` / the coordinate fields of `StructureFast`. -/
structure Pt where
  x : Int
  z : Int
deriving DecidableEq, Repr

/-- `coord_to_cell` (groupfinder.c:203-208): floored cell mapping written with
C's truncating division. -/
def coord_to_cell (coord cell_size : Int) : Int :=
  if 0 ≤ coord then coord.tdiv cell_size
  else (coord - cell_size + 1).tdiv cell_size

/-- The cell key `(cellX, cellZ)` of a point (computed eagerly in HIGH/BALANCED
tiers, on demand in LOW tier; the value is the same). -/
def cellKey (s : Int) (p : Pt) : Int × Int :=
  (coord_to_cell p.x s, coord_to_cell p.z s)

/-- Helper for C5: truncating division of a nonpositive shifted numerator
agrees with floored division for positive divisors. -/
theorem coord_to_cell_eq_fdiv (v s : Int) (hs : 0 < s) :
    coord_to_cell v s = v.fdiv s := by
  rcases le_or_lt 0 v with hv | hv
  · rw [coord_to_cell, if_pos hv, Int.tdiv_eq_ediv hv hs.le,
      Int.fdiv_eq_ediv v hs.le]
  · rw [coord_to_cell, if_neg (not_le.mpr hv), Int.fdiv_eq_ediv v hs.le]
    have hrepr : v - s + 1 = -(s - 1 - v) := by ring
    have hnn : 0 ≤ s - 1 - v := by omega
    rw [hrepr, Int.neg_tdiv, Int.tdiv_eq_ediv hnn hs.le]
    -- write v = q*s + r with 0 ≤ r < s
    have hr0 : 0 ≤ v % s := Int.emod_nonneg v hs.ne.symm
    have hrs : v % s < s := Int.emod_lt_of_pos v hs
    have hqr : v % s + v / s * s = v := Int.emod_add_ediv' v s
    have hsplit : s - 1 - v = (s - 1 - v % s) + -(v / s) * s := by
      rw [neg_mul]; omega
    rw [hsplit, Int.add_mul_ediv_right _ _ hs.ne.symm,
      Int.ediv_eq_zero_of_lt (by omega) (by omega)]
    omega

/-- C5: the cell coordinate mapping is `v / s` (truncating) for `v ≥ 0` and
`(v − s + 1) / s` for `v < 0`, and is exactly floored division; in particular
`coord_to_cell (-1) 10 = -1`, not `0`. -/
theorem cell_mapping_floored (v s : Int) (hs : 0 < s) :
    (0 ≤ v → coord_to_cell v s = v.tdiv s) ∧
    (v < 0 → coord_to_cell v s = (v - s + 1).tdiv s) ∧
    coord_to_cell v s = v.fdiv s ∧
    coord_to_cell (-1) 10 = -1 ∧ coord_to_cell (-1) 10 ≠ 0 := by
  refine ⟨fun hv => by rw [coord_to_cell, if_pos hv],
    fun hv => by rw [coord_to_cell, if_neg (not_le.mpr hv)],
    coord_to_cell_eq_fdiv v s hs, by decide, by decide⟩

/-- Witness for C5 at `v = -1`, `s = 10`. -/
theorem cell_mapping_floored_witness :
    (0 : Int) < 10 ∧ coord_to_cell (-1) 10 = Int.fdiv (-1) 10 := by
  refine ⟨by decide, ?_⟩
  exact (cell_mapping_floored (-1) 10 (by decide)).2.2.1

/-! ## 64-bit distance arithmetic (C7) -/

/-- Two's-complement wrap of an unbounded integer into the signed 64-bit
range `[-2^63, 2^63)`, the effect of each C `int64_t` operation. -/
def wrap64 (n : Int) : Int := (n + 2 ^ 63) % 2 ^ 64 - 2 ^ 63

/-- `get_coords` (groupfinder.c:640-651): coordinates of the point stored at
`idx` (both record layouts store the same `(x, z)`). -/
def get_coords (pts : List Pt) (idx : ℕ) : Pt := pts.getD idx ⟨0, 0⟩

/-- `dist_sq_idx` (groupfinder.c:653-661) with exact integer arithmetic. -/
def dist_sq_idx (pts : List Pt) (a b : ℕ) : Int :=
  let dx := (get_coords pts a).x - (get_coords pts b).x
  let dz := (get_coords pts a).z - (get_coords pts b).z
  dx * dx + dz * dz

/-- `dist_sq_idx` with every C `int64_t` intermediate wrapped to 64 bits
(the subtraction, each product, and the sum). -/
def dist_sq_idx_i64 (pts : List Pt) (a b : ℕ) : Int :=
  let dx := wrap64 ((get_coords pts a).x - (get_coords pts b).x)
  let dz := wrap64 ((get_coords pts a).z - (get_coords pts b).z)
  wrap64 (wrap64 (dx * dx) + wrap64 (dz * dz))

/-- `wrap64` is the identity exactly on the signed 64-bit range. -/
theorem wrap64_eq_self {n : Int} (h1 : -(2 ^ 63) ≤ n) (h2 : n < 2 ^ 63) :
    wrap64 n = n := by
  have : (n + 2 ^ 63) % 2 ^ 64 = n + 2 ^ 63 :=
    Int.emod_eq_of_lt (by omega) (by omega)
  simp only [wrap64, this]
  omega

/-- A point whose coordinates fit in a signed 31-bit range. -/
def In31Bit (p : Pt) : Prop :=
  -(2 ^ 30) ≤ p.x ∧ p.x < 2 ^ 30 ∧ -(2 ^ 30) ≤ p.z ∧ p.z < 2 ^ 30

instance (p : Pt) : Decidable (In31Bit p) := by unfold In31Bit; infer_instance

/-- C7 (amended): if both points' coordinates fit in a signed **31**-bit
range, the 64-bit computation of `dist_sq_idx` wraps at no intermediate step
and equals the exact mathematical squared distance.  (The claim's 32-bit
hypothesis is refuted by `dist_sq_overflow_counterexample`.) -/
theorem dist_sq_exact_31bit (pts : List Pt) (a b : ℕ)
    (ha : In31Bit (get_coords pts a)) (hb : In31Bit (get_coords pts b)) :
    dist_sq_idx_i64 pts a b = dist_sq_idx pts a b ∧
    (let dx := (get_coords pts a).x - (get_coords pts b).x
     let dz := (get_coords pts a).z - (get_coords pts b).z
     wrap64 dx = dx ∧ wrap64 dz = dz ∧ wrap64 (dx * dx) = dx * dx ∧
     wrap64 (dz * dz) = dz * dz ∧
     wrap64 (dx * dx + dz * dz) = dx * dx + dz * dz) := by
  obtain ⟨hax1, hax2, haz1, haz2⟩ := ha
  obtain ⟨hbx1, hbx2, hbz1, hbz2⟩ := hb
  set dx := (get_coords pts a).x - (get_coords pts b).x with hdx
  set dz := (get_coords pts a).z - (get_coords pts b).z with hdz
  have hdx1 : -(2 ^ 31) < dx := by omega
  have hdx2 : dx < 2 ^ 31 := by omega
  have hdz1 : -(2 ^ 31) < dz := by omega
  have hdz2 : dz < 2 ^ 31 := by omega
  have hxx : dx * dx < 2 ^ 62 := by nlinarith
  have hxx0 : 0 ≤ dx * dx := mul_self_nonneg dx
  have hzz : dz * dz < 2 ^ 62 := by nlinarith
  have hzz0 : 0 ≤ dz * dz := mul_self_nonneg dz
  have wdx : wrap64 dx = dx := wrap64_eq_self (by omega) (by omega)
  have wdz : wrap64 dz = dz := wrap64_eq_self (by omega) (by omega)
  have wxx : wrap64 (dx * dx) = dx * dx := wrap64_eq_self (by omega) (by omega)
  have wzz : wrap64 (dz * dz) = dz * dz := wrap64_eq_self (by omega) (by omega)
  have wsum : wrap64 (dx * dx + dz * dz) = dx * dx + dz * dz :=
    wrap64_eq_self (by omega) (by omega)
  refine ⟨?_, wdx, wdz, wxx, wzz, wsum⟩
  rw [dist_sq_idx_i64, dist_sq_idx]
  simp only [← hdx, ← hdz, wdx, wdz, wxx, wzz, wsum]

/-- Witness for C7 (amended) at two concrete small points. -/
theorem dist_sq_exact_31bit_witness :
    In31Bit (get_coords [⟨3, 4⟩, ⟨-5, 6⟩] 0) ∧
    dist_sq_idx_i64 [⟨3, 4⟩, ⟨-5, 6⟩] 0 1 = dist_sq_idx [⟨3, 4⟩, ⟨-5, 6⟩] 0 1 := by
  refine ⟨by decide, ?_⟩
  exact (dist_sq_exact_31bit [⟨3, 4⟩, ⟨-5, 6⟩] 0 1 (by decide) (by decide)).1

/-- C7 counterexample: for the signed-32-bit points `(2147483647, 2147483647)`
and `(-2147483648, -2147483648)` the 64-bit computation wraps
(`dx*dx = (2^32-1)^2 ≥ 2^63`) and does not equal the exact squared distance. -/
theorem dist_sq_overflow_counterexample :
    dist_sq_idx_i64 [⟨2147483647, 2147483647⟩, ⟨-2147483648, -2147483648⟩] 0 1 ≠
      dist_sq_idx [⟨2147483647, 2147483647⟩, ⟨-2147483648, -2147483648⟩] 0 1 ∧
    (-(2 ^ 31) ≤ (-2147483648 : Int) ∧ (2147483647 : Int) < 2 ^ 31) := by
  refine ⟨by decide, by decide, by decide⟩

/-! ## The text-line parser (C9)

`parse_line` (groupfinder.c:307-327) searches for `"->"`, expects `'('`,
reads two C `long` values with `strtol`, separated by `','` and closed by
`')'`, and stores them through the cast `(int32_t)`, which on this target
reduces modulo `2^32` into the signed 32-bit range. -/

/-- The six `isspace` characters skipped by `strtol`. -/
def isSpaceChar (c : Char) : Bool :=
  c = ' ' || c = '\t' || c = '\n' || c.toNat = 11 || c.toNat = 12 || c = '\r'

/-- Decimal digit test, `'0' ≤ c ∧ c ≤ '9'`. -/
def isDigitChar (c : Char) : Bool := 48 ≤ c.toNat && c.toNat ≤ 57

/-- Greedy digit accumulation of `strtol` (base 10): consume leading decimal
digits, returning the accumulated magnitude and the rest of the string. -/
def takeDigits : List Char → ℕ → ℕ × List Char
  | [], acc => (acc, [])
  | c :: rest, acc =>
    if isDigitChar c then takeDigits rest (10 * acc + (c.toNat - 48))
    else (acc, c :: rest)

/-- `strtol` saturates to `LONG_MIN`/`LONG_MAX` on overflow. -/
def clampLong (n : Int) : Int :=
  if n < -(2 ^ 63) then -(2 ^ 63) else if 2 ^ 63 - 1 < n then 2 ^ 63 - 1 else n

/-- Model of C `strtol(p, &end, 10)`: skip whitespace, optional sign, then at
least one digit; `none` models the `end == p` (no conversion) case checked by
`parse_line`. -/
def strtol (s : List Char) : Option (Int × List Char) :=
  match s.dropWhile isSpaceChar with
  | [] => none
  | c :: rest =>
    if c = '-' ∨ c = '+' then
      match rest with
      | [] => none
      | c2 :: _ =>
        if isDigitChar c2 then
          let m := takeDigits rest 0
          some (clampLong (if c = '-' then -(m.1 : Int) else (m.1 : Int)), m.2)
        else none
    else if isDigitChar c then
      let m := takeDigits (c :: rest) 0
      some (clampLong (m.1 : Int), m.2)
    else none

/-- The C cast `(int32_t)l` (gcc/clang semantics): reduce modulo `2^32` into
`[-2^31, 2^31)`. -/
def to_int32 (l : Int) : Int := (l + 2 ^ 31) % 2 ^ 32 - 2 ^ 31

/-- `strstr(line, "->")`: the tail of the line after the first `"->"`. -/
def after_arrow : List Char → Option (List Char)
  | '-' :: '>' :: rest => some rest
  | _ :: rest => after_arrow rest
  | [] => none

/-- `parse_line` (groupfinder.c:307-327). -/
def parse_line (line : List Char) : Option (Int × Int) :=
  match after_arrow line with
  | none => none
  | some t =>
    match t with
    | '(' :: t1 =>
      match strtol t1 with
      | none => none
      | some (lx, r1) =>
        match r1 with
        | ',' :: t2 =>
          match strtol t2 with
          | none => none
          | some (lz, r2) =>
            match r2 with
            | ')' :: _ => some (to_int32 lx, to_int32 lz)
            | _ => none
        | _ => none
    | _ => none

/-- The parsing loop of `parse_file` (groupfinder.c:380-417): every line is
copied into a 256-byte buffer (truncating to 255 characters) and appended to
the point store iff `parse_line` accepts it. -/
def parse_file (ls : List (List Char)) : List Pt :=
  ls.filterMap fun l =>
    (parse_line (l.take 255)).map fun p => ⟨p.1, p.2⟩

/-! Canonical decimal rendering, used to quantify over "lines matching the
`->(<x>,<z>)` pattern" in C9. -/

/-- The decimal digit character of `d` (digits `≥ 9` all render as `'9'`;
only `d < 10` is ever used). -/
def digitChar : ℕ → Char
  | 0 => '0' | 1 => '1' | 2 => '2' | 3 => '3' | 4 => '4'
  | 5 => '5' | 6 => '6' | 7 => '7' | 8 => '8' | _ => '9'

/-- Decimal rendering of a natural number, with structural fuel
(`natChars` supplies enough fuel for any `n`). -/
def natCharsF : ℕ → ℕ → List Char
  | 0, _ => []
  | f + 1, n =>
    if n < 10 then [digitChar n]
    else natCharsF f (n / 10) ++ [digitChar (n % 10)]

/-- Decimal rendering of a natural number. -/
def natChars (n : ℕ) : List Char := natCharsF (n + 1) n

/-- Decimal rendering of an integer. -/
def intChars (v : Int) : List Char :=
  if v < 0 then '-' :: natChars v.natAbs else natChars v.toNat

/-- A line of the shape `->(<x>,<z>)<suffix>`. -/
def mk_line (x z : Int) (suffix : List Char) : List Char :=
  '-' :: '>' :: '(' :: (intChars x ++ ',' :: (intChars z ++ ')' :: suffix))

theorem digitChar_spec (d : ℕ) (h : d < 10) :
    (digitChar d).toNat = 48 + d ∧ isDigitChar (digitChar d) = true ∧
    isSpaceChar (digitChar d) = false ∧ digitChar d ≠ '-' ∧ digitChar d ≠ '+' := by
  interval_cases d <;> exact ⟨rfl, rfl, rfl, by decide, by decide⟩

theorem takeDigits_not_digit {rest : List Char}
    (h : ∀ c, rest.head? = some c → isDigitChar c = false) (acc : ℕ) :
    takeDigits rest acc = (acc, rest) := by
  cases rest with
  | nil => rfl
  | cons c cs => rw [takeDigits, h c rfl]; simp

theorem takeDigits_natCharsF (f : ℕ) : ∀ n, n < 10 ^ f → ∀ acc rest,
    takeDigits (natCharsF f n ++ rest) acc =
      takeDigits rest (acc * 10 ^ (natCharsF f n).length + n) := by
  induction f with
  | zero =>
    intro n hn acc rest
    interval_cases n
    simp [natCharsF]
  | succ f ih =>
    intro n hn acc rest
    by_cases h : n < 10
    · rw [natCharsF, if_pos h]
      simp only [List.cons_append, List.nil_append, List.length_cons,
        List.length_nil, takeDigits, (digitChar_spec n h).2.1, if_true,
        (digitChar_spec n h).1]
      norm_num
      ring_nf
    · rw [natCharsF, if_neg h, List.append_assoc, List.cons_append,
        List.nil_append]
      have hdiv : n / 10 < 10 ^ f := by
        rw [pow_succ] at hn
        exact Nat.div_lt_of_lt_mul (by omega)
      rw [ih (n / 10) hdiv acc _]
      simp only [takeDigits, (digitChar_spec (n % 10) (Nat.mod_lt n (by decide))).2.1,
        if_true, (digitChar_spec (n % 10) (Nat.mod_lt n (by decide))).1]
      simp only [List.length_append, List.length_cons, List.length_nil]
      congr 1
      rw [pow_succ, ← mul_assoc]
      omega

theorem nat_lt_ten_pow (n : ℕ) : n < 10 ^ (n + 1) :=
  lt_of_lt_of_le (Nat.lt_pow_self (by decide) n)
    (Nat.pow_le_pow_right (by decide) (Nat.le_succ n))

theorem takeDigits_natChars (n : ℕ) (acc : ℕ) (rest : List Char) :
    takeDigits (natChars n ++ rest) acc =
      takeDigits rest (acc * 10 ^ (natChars n).length + n) :=
  takeDigits_natCharsF (n + 1) n (nat_lt_ten_pow n) acc rest

theorem natCharsF_head (f : ℕ) : ∀ n, n < 10 ^ f →
    ∃ d cs, d < 10 ∧ natCharsF (f + 1) n = digitChar d :: cs := by
  induction f with
  | zero =>
    intro n hn
    interval_cases n
    exact ⟨0, [], by decide, rfl⟩
  | succ f ih =>
    intro n hn
    by_cases h : n < 10
    · exact ⟨n, [], h, by rw [natCharsF, if_pos h]⟩
    · have hdiv : n / 10 < 10 ^ f := by
        rw [pow_succ] at hn
        exact Nat.div_lt_of_lt_mul (by omega)
      obtain ⟨d, cs, hd, hcs⟩ := ih (n / 10) hdiv
      exact ⟨d, cs ++ [digitChar (n % 10)], hd, by
        rw [natCharsF, if_neg h, hcs, List.cons_append]⟩

theorem natChars_head (n : ℕ) :
    ∃ d cs, d < 10 ∧ natChars n = digitChar d :: cs :=
  natCharsF_head n n (Nat.lt_pow_self (by decide) n)

theorem takeDigits_natChars_rest (m : ℕ) {rest : List Char}
    (hrest : ∀ c, rest.head? = some c → isDigitChar c = false) :
    takeDigits (natChars m ++ rest) 0 = (m, rest) := by
  rw [takeDigits_natChars, takeDigits_not_digit hrest]
  norm_num

theorem clampLong_eq {w : Int} (h1 : -(2 ^ 63) ≤ w) (h2 : w ≤ 2 ^ 63 - 1) :
    clampLong w = w := by
  rw [clampLong, if_neg (by omega), if_neg (by omega)]

/-- `strtol` on a canonically rendered integer in the `long` range, followed
by a non-digit: consumes exactly the rendering and returns the value. -/
theorem strtol_intChars (v : Int) (hv1 : -(2 ^ 63) ≤ v) (hv2 : v ≤ 2 ^ 63 - 1)
    (rest : List Char) (hrest : ∀ c, rest.head? = some c → isDigitChar c = false) :
    strtol (intChars v ++ rest) = some (v, rest) := by
  rcases lt_or_le v 0 with hv | hv
  · obtain ⟨d, cs, hd, hcs⟩ := natChars_head v.natAbs
    have hspec := digitChar_spec d hd
    rw [intChars, if_pos hv, List.cons_append, hcs, List.cons_append]
    simp only [strtol, List.dropWhile_cons,
      show isSpaceChar '-' = false from rfl, Bool.false_eq_true, if_false]
    simp only [true_or, if_true, hspec.2.1, eq_self_iff_true]
    rw [← List.cons_append, ← hcs, takeDigits_natChars_rest v.natAbs hrest]
    have habs : -((v.natAbs : ℕ) : Int) = v := by omega
    simp only [habs, clampLong_eq hv1 hv2]
  · obtain ⟨d, cs, hd, hcs⟩ := natChars_head v.toNat
    have hspec := digitChar_spec d hd
    rw [intChars, if_neg (not_lt.mpr hv), hcs, List.cons_append]
    simp only [strtol, List.dropWhile_cons, hspec.2.2.1, Bool.false_eq_true,
      if_false, if_neg (not_or.mpr ⟨hspec.2.2.2.1, hspec.2.2.2.2⟩),
      hspec.2.1, if_true]
    rw [← List.cons_append, ← hcs, takeDigits_natChars_rest v.toNat hrest]
    have htn : ((v.toNat : ℕ) : Int) = v := Int.toNat_of_nonneg hv
    rw [htn, clampLong_eq hv1 hv2]

theorem parse_line_mk_line (x z : Int)
    (hx1 : -(2 ^ 63) ≤ x) (hx2 : x ≤ 2 ^ 63 - 1)
    (hz1 : -(2 ^ 63) ≤ z) (hz2 : z ≤ 2 ^ 63 - 1) (suffix : List Char) :
    parse_line (mk_line x z suffix) = some (to_int32 x, to_int32 z) := by
  have hcomma : ∀ c : Char,
      (',' :: (intChars z ++ ')' :: suffix)).head? = some c →
        isDigitChar c = false := by
    intro c hc
    rw [List.head?_cons, Option.some_inj] at hc
    rw [← hc]; rfl
  have hparen : ∀ c : Char,
      (')' :: suffix).head? = some c → isDigitChar c = false := by
    intro c hc
    rw [List.head?_cons, Option.some_inj] at hc
    rw [← hc]; rfl
  have h1 := strtol_intChars x hx1 hx2 (',' :: (intChars z ++ ')' :: suffix)) hcomma
  have h2 := strtol_intChars z hz1 hz2 (')' :: suffix) hparen
  rw [mk_line]
  simp only [parse_line, after_arrow, h1, h2]

theorem parse_file_append_mk_line (x z : Int)
    (hx1 : -(2 ^ 63) ≤ x) (hx2 : x ≤ 2 ^ 63 - 1)
    (hz1 : -(2 ^ 63) ≤ z) (hz2 : z ≤ 2 ^ 63 - 1) (suffix : List Char)
    (hlen : (mk_line x z suffix).length ≤ 255) (prev : List (List Char)) :
    parse_file (prev ++ [mk_line x z suffix]) =
      parse_file prev ++ [⟨to_int32 x, to_int32 z⟩] := by
  rw [parse_file, parse_file, List.filterMap_append]
  congr 1
  simp [List.take_of_length_le hlen,
    parse_line_mk_line x z hx1 hx2 hz1 hz2 suffix]

/-- C9: any line of the pattern `->(<x>,<z>)…` whose decimal integers fit in
C `long` but exceed the `int32` range is **accepted** by `parse_line`: the
stored coordinates are the values reduced modulo `2^32` into `[-2^31, 2^31)`
(silent two's-complement wrap), and the parse loop appends a point
(incrementing the count) instead of skipping the line. -/
theorem parse_line_accepts_out_of_range_int32 (x z : Int) (suffix : List Char)
    (hx1 : -(2 ^ 63) ≤ x) (hx2 : x ≤ 2 ^ 63 - 1)
    (hz1 : -(2 ^ 63) ≤ z) (hz2 : z ≤ 2 ^ 63 - 1)
    (hout : x < -(2 ^ 31) ∨ 2 ^ 31 - 1 < x ∨ z < -(2 ^ 31) ∨ 2 ^ 31 - 1 < z)
    (hlen : (mk_line x z suffix).length ≤ 255) :
    parse_line (mk_line x z suffix) = some (to_int32 x, to_int32 z) ∧
    (-(2 ^ 31) ≤ to_int32 x ∧ to_int32 x < 2 ^ 31 ∧
     -(2 ^ 31) ≤ to_int32 z ∧ to_int32 z < 2 ^ 31) ∧
    (to_int32 x - x) % 2 ^ 32 = 0 ∧ (to_int32 z - z) % 2 ^ 32 = 0 ∧
    ∀ prev : List (List Char),
      (parse_file (prev ++ [mk_line x z suffix])).length =
        (parse_file prev).length + 1 := by
  refine ⟨parse_line_mk_line x z hx1 hx2 hz1 hz2 suffix, ⟨?_, ?_, ?_, ?_⟩,
    ?_, ?_, fun prev => ?_⟩
  · unfold to_int32; omega
  · unfold to_int32; omega
  · unfold to_int32; omega
  · unfold to_int32; omega
  · unfold to_int32; omega
  · unfold to_int32; omega
  · simp [parse_file_append_mk_line x z hx1 hx2 hz1 hz2 suffix hlen prev]

/-- Witness for C9 at `x = 2^31` (wraps to `-2^31`) and `z = -2^31 - 1`
(wraps to `2^31 - 1`). -/
theorem parse_line_accepts_witness :
    parse_line (mk_line 2147483648 (-2147483649) []) =
      some (-2147483648, 2147483647) ∧
    (parse_file [mk_line 2147483648 (-2147483649) []]).length = 1 := by
  have h := parse_line_accepts_out_of_range_int32 2147483648 (-2147483649) []
    (by norm_num) (by norm_num) (by norm_num) (by norm_num)
    (Or.inr (Or.inl (by norm_num))) (by decide)
  constructor
  · rw [h.1]; decide
  · have h2 := h.2.2.2.2 []
    simpa using h2

/-! ## The spatial index (C6, C10)

`build_spatial_index` (groupfinder.c:467-619) sorts the points by cell key,
run-length encodes them into cells, and chains the cells into a hash table.
The sort is `qsort` with `compare_fast`/`compare_compact`; its postcondition
is that the array is sorted by cell key (`SortedPts`), and the index-build
and enumeration claims quantify over sorted arrays. -/

structure CellEntry where
  cellX : Int
  cellZ : Int
  start : ℕ
  count : ℕ
  next : ℕ
deriving DecidableEq, Repr

/-- Strict lexicographic order on cell keys, the order established by
`compare_fast` / `compare_compact` (groupfinder.c:433-461). -/
def keyLt (s : Int) (p q : Pt) : Prop :=
  (cellKey s p).1 < (cellKey s q).1 ∨
    ((cellKey s p).1 = (cellKey s q).1 ∧ (cellKey s p).2 < (cellKey s q).2)

def keyLe (s : Int) (p q : Pt) : Prop := keyLt s p q ∨ cellKey s p = cellKey s q

instance (s : Int) (p q : Pt) : Decidable (keyLt s p q) := by
  unfold keyLt; infer_instance

instance (s : Int) (p q : Pt) : Decidable (keyLe s p q) := by
  unfold keyLe; infer_instance

/-- The point array is sorted by cell key (the `qsort` postcondition). -/
def SortedPts (s : Int) (pts : List Pt) : Prop := List.Pairwise (keyLe s) pts

instance (s : Int) (pts : List Pt) : Decidable (SortedPts s pts) := by
  unfold SortedPts; infer_instance

/-- The run-length scan of `build_spatial_index` (groupfinder.c:538-585):
each maximal adjacent run of points with equal cell key becomes one cell
`(key, start, count, next := 0)`.  Written by structural recursion from the
right; it merges a point into the following run exactly when the keys agree,
which is the same grouping the left-to-right C scan produces. -/
def consCell (key : Int × Int) (start : ℕ) : List CellEntry → List CellEntry
  | [] => [⟨key.1, key.2, start, 1, 0⟩]
  | c :: cs =>
    if c.cellX = key.1 ∧ c.cellZ = key.2 then
      ⟨c.cellX, c.cellZ, start, c.count + 1, 0⟩ :: cs
    else ⟨key.1, key.2, start, 1, 0⟩ :: c :: cs

def buildCellsFrom (s : Int) : List Pt → ℕ → List CellEntry
  | [], _ => []
  | p :: rest, start =>
    consCell (cellKey s p) start (buildCellsFrom s rest (start + 1))

/-- `hash_cell` (groupfinder.c:210-218): FNV-1a over the two cell
coordinates viewed as unsigned 64-bit values, masked by `table_size - 1`. -/
def hash_cell (cx cz : Int) (table_size : ℕ) : ℕ :=
  let h0 : ℕ := 14695981039346656037
  let h1 := ((h0 ^^^ (cx % 2 ^ 64).toNat) * 1099511628211) % 2 ^ 64
  let h2 := ((h1 ^^^ (cz % 2 ^ 64).toNat) * 1099511628211) % 2 ^ 64
  Nat.land h2 (table_size - 1)

/-- The hash-table sizing loop (groupfinder.c:588-592): start at `2^20` and
double while below `2·num_cells` and below the tier cap `2^max_bits`; the
fuel `max_bits` exceeds the possible number of doublings. -/
def grow_table_size (num_cells cap : ℕ) : ℕ → ℕ → ℕ
  | 0, cur => cur
  | f + 1, cur =>
    if cur < 2 * num_cells ∧ cur < cap then
      grow_table_size num_cells cap f (2 * cur)
    else cur

/-- The chain-insertion loop (groupfinder.c:605-609): for each cell in index
order, `cell.next ← table[h]`, then `table[h] ← i + 1`.  The table is a
total function from bucket to link value (`0` = empty chain). -/
def insert_cells (ts : ℕ) : List CellEntry → (ℕ → ℕ) → ℕ → ((ℕ → ℕ) × List CellEntry)
  | [], t, _ => (t, [])
  | c :: cs, t, i =>
    let h := hash_cell c.cellX c.cellZ ts
    let r := insert_cells ts cs (fun x => if x = h then i + 1 else t x) (i + 1)
    (r.1, { c with next := t h } :: r.2)

/-- The immutable state shared by all workers after the index build. -/
structure SIndex where
  pts : List Pt
  cell_size : Int
  cells : List CellEntry
  table : ℕ → ℕ
  table_size : ℕ

/-- Stages 3-5 of `build_spatial_index` on an already-sorted array. -/
def build_index (s : Int) (max_bits : ℕ) (pts : List Pt) : SIndex :=
  let cells0 := buildCellsFrom s pts 0
  let ts := grow_table_size cells0.length (2 ^ max_bits) max_bits (2 ^ 20)
  let r := insert_cells ts cells0 (fun _ => 0) 0
  ⟨pts, s, r.2, r.1, ts⟩

/-- The chain walk of `find_cell` (groupfinder.c:621-633) with explicit
fuel; link value `v + 1` denotes cell index `v`, `0` ends the chain.
`find_cell` supplies fuel `cells.length + 1`, which is sufficient because
chains descend (`find_from_fuel_ge`, C10). -/
def find_from (cells : List CellEntry) (cx cz : Int) : ℕ → ℕ → Option CellEntry
  | 0, _ => none
  | _ + 1, 0 => none
  | fuel + 1, v + 1 =>
    match cells[v]? with
    | none => none
    | some c =>
      if c.cellX = cx ∧ c.cellZ = cz then some c
      else find_from cells cx cz fuel c.next

/-- `find_cell` (groupfinder.c:621-633). -/
def find_cell (idx : SIndex) (cx cz : Int) : Option CellEntry :=
  find_from idx.cells cx cz (idx.cells.length + 1)
    (idx.table (hash_cell cx cz idx.table_size))

/-! ## Subset enumeration (C1, C2, C3) -/

/-- The point indices stored in a cell: `[start, start + count)`. -/
def cellIndices (c : CellEntry) : List ℕ := (List.range c.count).map (c.start + ·)

/-- Ring offsets `-w..w` in loop order. -/
def offsets (w : ℕ) : List Int :=
  (List.range (2 * w + 1)).map (fun i : ℕ => (i : Int) - (w : Int))

/-- The indices contributed by one ring cell lookup: nothing for a miss,
the cell's index range for a hit. -/
def cellList : Option CellEntry → List ℕ
  | none => []
  | some nc => cellIndices nc

/-- The neighbor gather of `find_groups_in_cell` (groupfinder.c:729-738)
without the buffer cap: all point indices of the `(2w+1)×(2w+1)` ring of
cells around `c`, in loop order. -/
def gather_full (idx : SIndex) (w : ℕ) (c : CellEntry) : List ℕ :=
  (offsets w).flatMap fun dx =>
    (offsets w).flatMap fun dz =>
      cellList (find_cell idx (c.cellX + dx) (c.cellZ + dz))

/-- The neighbor gather with the tier buffer cap: once the buffer is full
the loop keeps only the prefix. -/
def gather (idx : SIndex) (w buf_size : ℕ) (c : CellEntry) : List ℕ :=
  (gather_full idx w c).take buf_size

/-- The candidate filter (groupfinder.c:747-757) without the 4096 cap:
gathered neighbors strictly after the base and within `4·r²` of it. -/
def candidates_full (pts : List Pt) (radius_sq : Int) (base : ℕ) (nb : List ℕ) : List ℕ :=
  nb.filter fun n => decide (base < n ∧ dist_sq_idx pts base n ≤ 4 * radius_sq)

/-- The candidate array: the scan stops as soon as 4096 candidates are
stored, so the array is the 4096-prefix of the filtered neighbor list. -/
def candidates (pts : List Pt) (radius_sq : Int) (base : ℕ) (nb : List ℕ) : List ℕ :=
  (candidates_full pts radius_sq base nb).take 4096

/-- `is_valid_group` (groupfinder.c:696-717) in exact arithmetic with
denominators cleared: member `p` of the `k`-element group is within the
radius of the centroid `(Σx/k, Σz/k)` iff
`(k·p.x − Σx)² + (k·p.z − Σz)² ≤ r²·k²`.  This is the executable form; it
is proved equivalent (`is_valid_group_iff_Q`) to the direct rational
transcription `is_valid_groupQ` of the C `double` computation, exact
arithmetic being licensed by §4.6 of the specification. -/
def is_valid_group (pts : List Pt) (radius_sq : Int) (g : List ℕ) : Bool :=
  let k : Int := g.length
  let sx := (g.map fun i => (get_coords pts i).x).sum
  let sz := (g.map fun i => (get_coords pts i).z).sum
  g.all fun i =>
    decide ((k * (get_coords pts i).x - sx) ^ 2 +
      (k * (get_coords pts i).z - sz) ^ 2 ≤ radius_sq * k ^ 2)

/-- Direct transcription of `is_valid_group` with rational arithmetic in
place of `double`: centroid as the arithmetic mean, squared distance of
every member at most `r²`. -/
def is_valid_groupQ (pts : List Pt) (radius_sq : Int) (g : List ℕ) : Prop :=
  let cx : ℚ := (g.map fun i => ((get_coords pts i).x : ℚ)).sum / g.length
  let cz : ℚ := (g.map fun i => ((get_coords pts i).z : ℚ)).sum / g.length
  ∀ i ∈ g, ((get_coords pts i).x - cx) ^ 2 + ((get_coords pts i).z - cz) ^ 2 ≤
    (radius_sq : ℚ)

/-- The 4-subset loops (groupfinder.c:762-782): positions `i < j < k` over
the candidate array, with the three pair prunes and the centroid predicate,
in loop order.  Only entered with at least 3 candidates. -/
def groups4 (pts : List Pt) (radius_sq : Int) (base : ℕ) (cand : List ℕ) :
    List (List ℕ) :=
  if 3 ≤ cand.length then
    (List.range (cand.length - 2)).flatMap fun i =>
      (List.range' (i + 1) (cand.length - 1 - (i + 1))).flatMap fun j =>
        if 4 * radius_sq < dist_sq_idx pts (cand.getD i 0) (cand.getD j 0) then []
        else
          (List.range' (j + 1) (cand.length - (j + 1))).flatMap fun k =>
            if 4 * radius_sq < dist_sq_idx pts (cand.getD i 0) (cand.getD k 0) then []
            else if 4 * radius_sq < dist_sq_idx pts (cand.getD j 0) (cand.getD k 0) then []
            else if is_valid_group pts radius_sq
                [base, cand.getD i 0, cand.getD j 0, cand.getD k 0] then
              [[base, cand.getD i 0, cand.getD j 0, cand.getD k 0]]
            else []
  else []

/-- The 3-subset loops (groupfinder.c:785-796): positions `i < j`, the pair
prune, the centroid predicate.  Only entered with at least 2 candidates. -/
def groups3 (pts : List Pt) (radius_sq : Int) (base : ℕ) (cand : List ℕ) :
    List (List ℕ) :=
  (List.range (cand.length - 1)).flatMap fun i =>
    (List.range' (i + 1) (cand.length - (i + 1))).flatMap fun j =>
      if 4 * radius_sq < dist_sq_idx pts (cand.getD i 0) (cand.getD j 0) then []
      else if is_valid_group pts radius_sq [base, cand.getD i 0, cand.getD j 0] then
        [[base, cand.getD i 0, cand.getD j 0]]
      else []

/-- The per-base enumeration: skipped with fewer than 2 candidates
(groupfinder.c:759), otherwise groups of 4 then groups of 3. -/
def base_groups (pts : List Pt) (radius_sq : Int) (base : ℕ) (cand : List ℕ) :
    List (List ℕ) :=
  if cand.length < 2 then []
  else groups4 pts radius_sq base cand ++ groups3 pts radius_sq base cand

/-- `find_groups_in_cell` (groupfinder.c:719-798). -/
def find_groups_in_cell (idx : SIndex) (radius_sq : Int) (w buf_size : ℕ)
    (c : CellEntry) : List (List ℕ) :=
  let nb := gather idx w buf_size c
  if nb.length < 3 then []
  else
    (List.range c.count).flatMap fun ci =>
      base_groups idx.pts radius_sq (c.start + ci)
        (candidates idx.pts radius_sq (c.start + ci) nb)

/-- All groups emitted by a sequential pass over the cells (the thread
partition is a permutation of this list; C4). -/
def all_groups (idx : SIndex) (radius_sq : Int) (w buf_size : ℕ) : List (List ℕ) :=
  idx.cells.flatMap (find_groups_in_cell idx radius_sq w buf_size)

/-- The full enumeration pipeline on a sorted point array: radius `r`, cell
multiplier `mult` (`cell_size = r·mult`, `search_range = (mult+1)/2 + 1`,
`radius_sq = r·r`, `max_pair = 4·radius_sq`), neighbor-buffer size
`buf_size`, hash-table cap `2^max_bits`. -/
def run_groups (pts : List Pt) (r : Int) (mult buf_size max_bits : ℕ) :
    List (List ℕ) :=
  all_groups (build_index (r * mult) max_bits pts) (r * r) ((mult + 1) / 2 + 1)
    buf_size

/-- The emitted groups viewed as sets of point indices. -/
def emitted_sets (pts : List Pt) (r : Int) (mult buf_size max_bits : ℕ) :
    List (Finset ℕ) :=
  (run_groups pts r mult buf_size max_bits).map List.toFinset

/-! ## Structure of the cell array -/

/-- The cells of the run-length scan occupy consecutive index ranges
starting at `n`, each nonempty. -/
def ConsecFrom : ℕ → List CellEntry → Prop
  | _, [] => True
  | n, c :: cs => c.start = n ∧ 1 ≤ c.count ∧ ConsecFrom (n + c.count) cs

/-- Strict lexicographic order on cell keys of cell entries. -/
def cellLt (c d : CellEntry) : Prop :=
  c.cellX < d.cellX ∨ (c.cellX = d.cellX ∧ c.cellZ < d.cellZ)

instance : IsTrans CellEntry cellLt :=
  ⟨by intro a b c hab hbc; unfold cellLt at *; omega⟩

theorem mem_cellIndices {n : ℕ} {c : CellEntry} :
    n ∈ cellIndices c ↔ c.start ≤ n ∧ n < c.start + c.count := by
  simp only [cellIndices, List.mem_map, List.mem_range]
  constructor
  · rintro ⟨i, hi, rfl⟩; omega
  · rintro ⟨h1, h2⟩; exact ⟨n - c.start, by omega, by omega⟩

theorem buildCellsFrom_consec (s : Int) :
    ∀ (pts : List Pt) (start : ℕ), ConsecFrom start (buildCellsFrom s pts start)
  | [], start => trivial
  | p :: rest, start => by
    have ih := buildCellsFrom_consec s rest (start + 1)
    rw [buildCellsFrom]
    cases hR : buildCellsFrom s rest (start + 1) with
    | nil => exact ⟨rfl, le_refl 1, trivial⟩
    | cons c cs =>
      rw [hR] at ih
      obtain ⟨hs, hc, hrest⟩ := ih
      rw [consCell]
      by_cases hkey : c.cellX = (cellKey s p).1 ∧ c.cellZ = (cellKey s p).2
      · rw [if_pos hkey]
        refine ⟨rfl, Nat.succ_le_succ (Nat.zero_le c.count), ?_⟩
        show ConsecFrom (start + (c.count + 1)) cs
        have harith : start + (c.count + 1) = start + 1 + c.count := by omega
        rw [harith]
        exact hrest
      · rw [if_neg hkey]
        exact ⟨rfl, le_refl 1, hs, hc, hrest⟩

theorem buildCellsFrom_count_sum (s : Int) :
    ∀ (pts : List Pt) (start : ℕ),
      ((buildCellsFrom s pts start).map CellEntry.count).sum = pts.length
  | [], _ => rfl
  | p :: rest, start => by
    have ih := buildCellsFrom_count_sum s rest (start + 1)
    rw [buildCellsFrom]
    cases hR : buildCellsFrom s rest (start + 1) with
    | nil =>
      rw [hR] at ih
      simp only [List.map_nil, List.sum_nil] at ih
      simp [consCell, ← ih]
    | cons c cs =>
      rw [hR] at ih
      rw [consCell]
      by_cases hkey : c.cellX = (cellKey s p).1 ∧ c.cellZ = (cellKey s p).2
      · rw [if_pos hkey]
        simp only [List.map_cons, List.sum_cons] at ih ⊢
        simp only [List.length_cons, ← ih]
        omega
      · rw [if_neg hkey]
        simp only [List.map_cons, List.sum_cons] at ih ⊢
        simp only [List.length_cons, ← ih]
        omega

/-- Every key of a produced cell is the key of some point of the input. -/
theorem buildCellsFrom_key_mem (s : Int) :
    ∀ (pts : List Pt) (start : ℕ), ∀ c ∈ buildCellsFrom s pts start,
      ∃ p ∈ pts, cellKey s p = (c.cellX, c.cellZ)
  | [], _ => by intro c hc; cases hc
  | p :: rest, start => by
    intro c hc
    have ih := buildCellsFrom_key_mem s rest (start + 1)
    rw [buildCellsFrom] at hc
    cases hR : buildCellsFrom s rest (start + 1) with
    | nil =>
      rw [hR] at hc
      rw [consCell] at hc
      simp only [List.mem_singleton] at hc
      exact ⟨p, List.mem_cons_self p rest, by rw [hc]⟩
    | cons c0 cs =>
      rw [hR, consCell] at hc
      by_cases hkey : c0.cellX = (cellKey s p).1 ∧ c0.cellZ = (cellKey s p).2
      · rw [if_pos hkey] at hc
        rcases List.mem_cons.mp hc with h | h
        · refine ⟨p, List.mem_cons_self p rest, ?_⟩
          rw [h, hkey.1, hkey.2]
        · obtain ⟨q, hq, hk⟩ := ih c (by rw [hR]; exact List.mem_cons_of_mem c0 h)
          exact ⟨q, List.mem_cons_of_mem p hq, hk⟩
      · rw [if_neg hkey] at hc
        rcases List.mem_cons.mp hc with h | h
        · exact ⟨p, List.mem_cons_self p rest, by rw [h]⟩
        · obtain ⟨q, hq, hk⟩ := ih c (by rw [hR]; exact h)
          exact ⟨q, List.mem_cons_of_mem p hq, hk⟩

/-- On a sorted array, consecutive cells carry strictly increasing keys. -/
theorem buildCellsFrom_chain (s : Int) :
    ∀ (pts : List Pt) (start : ℕ), SortedPts s pts →
      List.Chain' cellLt (buildCellsFrom s pts start)
  | [], _, _ => List.chain'_nil
  | p :: rest, start, hsort => by
    have hsorted_rest : SortedPts s rest := (List.pairwise_cons.mp hsort).2
    have hle : ∀ q ∈ rest, keyLe s p q := (List.pairwise_cons.mp hsort).1
    have ih := buildCellsFrom_chain s rest (start + 1) hsorted_rest
    rw [buildCellsFrom]
    cases hR : buildCellsFrom s rest (start + 1) with
    | nil => exact List.chain'_singleton _
    | cons c cs =>
      rw [hR] at ih
      rw [consCell]
      by_cases hkey : c.cellX = (cellKey s p).1 ∧ c.cellZ = (cellKey s p).2
      · rw [if_pos hkey]
        cases cs with
        | nil => exact List.chain'_singleton _
        | cons d ds =>
          rw [List.chain'_cons] at ih ⊢
          refine ⟨?_, ih.2⟩
          have hcd := ih.1
          unfold cellLt at hcd ⊢
          simpa using hcd
      · rw [if_neg hkey]
        rw [List.chain'_cons]
        refine ⟨?_, ih⟩
        obtain ⟨q, hq, hk⟩ := buildCellsFrom_key_mem s rest (start + 1) c
          (by rw [hR]; exact List.mem_cons_self c cs)
        have hpq := hle q hq
        unfold cellLt
        simp only []
        rcases hpq with hlt | heq
        · unfold keyLt at hlt
          rw [hk] at hlt
          exact hlt
        · exfalso
          apply hkey
          rw [← heq] at hk
          exact ⟨by rw [hk], by rw [hk]⟩

theorem ConsecFrom.start_le {n : ℕ} : ∀ {cs : List CellEntry},
    ConsecFrom n cs → ∀ c ∈ cs, n ≤ c.start ∧ 1 ≤ c.count
  | [], _, c, hc => absurd hc (List.not_mem_nil c)
  | c0 :: cs, h, c, hc => by
    obtain ⟨hs, hc0, hrest⟩ := h
    rcases List.mem_cons.mp hc with rfl | hmem
    · omega
    · have := ConsecFrom.start_le hrest c hmem
      omega

theorem ConsecFrom.pairwise_ranges {n : ℕ} : ∀ {cs : List CellEntry},
    ConsecFrom n cs →
      List.Pairwise (fun c d => c.start + c.count ≤ d.start) cs
  | [], _ => List.Pairwise.nil
  | c0 :: cs, h => by
    obtain ⟨hs, hc0, hrest⟩ := h
    refine List.pairwise_cons.mpr ⟨?_, ConsecFrom.pairwise_ranges hrest⟩
    intro d hd
    have := (ConsecFrom.start_le hrest d hd).1
    omega

theorem ConsecFrom.upper_bound {n : ℕ} : ∀ {cs : List CellEntry},
    ConsecFrom n cs → ∀ c ∈ cs,
      c.start + c.count ≤ n + (cs.map CellEntry.count).sum
  | [], _, c, hc => absurd hc (List.not_mem_nil c)
  | c0 :: cs, h, c, hc => by
    obtain ⟨hs, hc0, hrest⟩ := h
    simp only [List.map_cons, List.sum_cons]
    rcases List.mem_cons.mp hc with rfl | hmem
    · omega
    · have := ConsecFrom.upper_bound hrest c hmem
      omega

theorem ConsecFrom.covers {n : ℕ} : ∀ {cs : List CellEntry},
    ConsecFrom n cs → ∀ i, n ≤ i → i < n + (cs.map CellEntry.count).sum →
      ∃ c ∈ cs, c.start ≤ i ∧ i < c.start + c.count
  | [], _, i, h1, h2 => by simp at h2; omega
  | c0 :: cs, h, i, h1, h2 => by
    obtain ⟨hs, hc0, hrest⟩ := h
    by_cases hin : i < c0.start + c0.count
    · exact ⟨c0, List.mem_cons_self c0 cs, by omega, hin⟩
    · simp only [List.map_cons, List.sum_cons] at h2
      obtain ⟨c, hc, hm⟩ := ConsecFrom.covers hrest i (by omega) (by omega)
      exact ⟨c, List.mem_cons_of_mem c0 hc, hm⟩

/-- The point stored at each index of a cell's range has the cell's key
(the run-length scan groups exactly the equal-key runs). -/
theorem buildCellsFrom_key_at (s : Int) :
    ∀ (pts : List Pt) (start : ℕ), ∀ c ∈ buildCellsFrom s pts start,
      ∀ j < c.count, ∃ p : Pt, pts[c.start + j - start]? = some p ∧
        cellKey s p = (c.cellX, c.cellZ)
  | [], _ => by intro c hc; cases hc
  | p :: rest, start => by
    intro c hc j hj
    have ih := buildCellsFrom_key_at s rest (start + 1)
    have hconsec := buildCellsFrom_consec s rest (start + 1)
    rw [buildCellsFrom] at hc
    cases hR : buildCellsFrom s rest (start + 1) with
    | nil =>
      rw [hR, consCell] at hc
      simp only [List.mem_singleton] at hc
      subst hc
      interval_cases j
      exact ⟨p, by simp, rfl⟩
    | cons c0 cs =>
      rw [hR] at hconsec
      obtain ⟨hs0, hcnt0, hrest0⟩ := hconsec
      rw [hR, consCell] at hc
      by_cases hkey : c0.cellX = (cellKey s p).1 ∧ c0.cellZ = (cellKey s p).2
      · rw [if_pos hkey] at hc
        rcases List.mem_cons.mp hc with rfl | hmem
        · -- the merged head cell: range start..start + c0.count + 1
          simp only [] at hj ⊢
          cases j with
          | zero =>
            refine ⟨p, by simp, ?_⟩
            rw [hkey.1, hkey.2]
          | succ j' =>
            have hj' : j' < c0.count := by omega
            obtain ⟨q, hq, hkq⟩ := ih c0 (by rw [hR]; exact List.mem_cons_self c0 cs) j' hj'
            refine ⟨q, ?_, hkq⟩
            rw [hs0] at hq
            have hidx : start + (j' + 1) - start = j' + 1 := by omega
            have hidx2 : start + 1 + j' - (start + 1) = j' := by omega
            rw [hidx2] at hq
            rw [hidx, List.getElem?_cons_succ]
            exact hq
        · obtain ⟨q, hq, hkq⟩ := ih c (by rw [hR]; exact List.mem_cons_of_mem c0 hmem) j hj
          refine ⟨q, ?_, hkq⟩
          have hcs : start + 1 ≤ c.start := by
            have := (ConsecFrom.start_le hrest0 c hmem).1
            omega
          have hidx : c.start + j - start = (c.start + j - (start + 1)) + 1 := by omega
          rw [hidx, List.getElem?_cons_succ]
          exact hq
      · rw [if_neg hkey] at hc
        rcases List.mem_cons.mp hc with rfl | hmem
        · simp only [] at hj ⊢
          interval_cases j
          exact ⟨p, by simp, rfl⟩
        · obtain ⟨q, hq, hkq⟩ := ih c (by rw [hR]; exact hmem) j hj
          refine ⟨q, ?_, hkq⟩
          have hcs : start + 1 ≤ c.start := by
            rcases List.mem_cons.mp hmem with rfl | hmem2
            · omega
            · have := (ConsecFrom.start_le hrest0 c hmem2).1
              omega
          have hidx : c.start + j - start = (c.start + j - (start + 1)) + 1 := by omega
          rw [hidx, List.getElem?_cons_succ]
          exact hq

/-! ## The hash chains (C6, C10) -/

/-- The non-link fields of a cell entry. -/
def strip (c : CellEntry) : Int × Int × ℕ × ℕ := (c.cellX, c.cellZ, c.start, c.count)

def hashOf (ts : ℕ) (c : CellEntry) : ℕ := hash_cell c.cellX c.cellZ ts

/-- The link stored at link value `v` (`0` = end of chain). -/
def nextOf (cells : List CellEntry) (v : ℕ) : ℕ :=
  match v with
  | 0 => 0
  | w + 1 => ((cells[w]?).map CellEntry.next).getD 0

/-- Link `b` is reachable from link `a` by following `next` pointers. -/
def ChainReach (nextF : ℕ → ℕ) : ℕ → ℕ → Prop :=
  Relation.ReflTransGen (fun a b => a ≠ 0 ∧ b = nextF a)

theorem insert_cells_length (ts : ℕ) : ∀ (cs : List CellEntry) (t : ℕ → ℕ) (i : ℕ),
    (insert_cells ts cs t i).2.length = cs.length
  | [], _, _ => rfl
  | c :: cs, t, i => by
    rw [insert_cells]
    simp only [List.length_cons]
    rw [insert_cells_length ts cs _ (i + 1)]

theorem insert_cells_strip (ts : ℕ) : ∀ (cs : List CellEntry) (t : ℕ → ℕ) (i : ℕ) (j : ℕ),
    ((insert_cells ts cs t i).2[j]?).map strip = (cs[j]?).map strip
  | [], _, _, _ => rfl
  | c :: cs, t, i, j => by
    rw [insert_cells]
    cases j with
    | zero => simp [strip]
    | succ j' =>
      simp only [List.getElem?_cons_succ]
      exact insert_cells_strip ts cs _ (i + 1) j'

theorem insert_cells_table_le (ts : ℕ) : ∀ (cs : List CellEntry) (t : ℕ → ℕ) (i : ℕ),
    (∀ h, t h ≤ i) → ∀ h, (insert_cells ts cs t i).1 h ≤ i + cs.length
  | [], t, i, ht, h => by
    rw [insert_cells]
    simpa using ht h
  | c :: cs, t, i, ht, h => by
    rw [insert_cells]
    have ht' : ∀ h',
        (fun x => if x = hash_cell c.cellX c.cellZ ts then i + 1 else t x) h' ≤ i + 1 := by
      intro h'
      by_cases hx : h' = hash_cell c.cellX c.cellZ ts
      · simp [hx]
      · simp only [if_neg hx]
        exact (ht h').trans (by omega)
    have hrec := insert_cells_table_le ts cs _ (i + 1) ht' h
    simp only [List.length_cons]
    omega

theorem insert_cells_next_le (ts : ℕ) : ∀ (cs : List CellEntry) (t : ℕ → ℕ) (i : ℕ),
    (∀ h, t h ≤ i) → ∀ j (c' : CellEntry),
      (insert_cells ts cs t i).2[j]? = some c' → c'.next ≤ i + j
  | [], _, _, _, j, c', hj => by
    rw [insert_cells] at hj
    simp at hj
  | c :: cs, t, i, ht, j, c', hj => by
    rw [insert_cells] at hj
    cases j with
    | zero =>
      simp only [List.getElem?_cons_zero, Option.some_inj] at hj
      subst hj
      simpa using ht _
    | succ j' =>
      simp only [List.getElem?_cons_succ] at hj
      have ht' : ∀ h', (fun x => if x = hash_cell c.cellX c.cellZ ts then i + 1 else t x) h' ≤ i + 1 := by
        intro h'
        by_cases hx : h' = hash_cell c.cellX c.cellZ ts
        · simp [hx]
        · simp only [if_neg hx]
          exact (ht h').trans (by omega)
      have := insert_cells_next_le ts cs _ (i + 1) ht' j' c' hj
      omega

/-- The final table's chain from any bucket reaches the value the initial
table held there (the insertion loop prepends). -/
theorem insert_cells_chain_base (ts : ℕ) :
    ∀ (cs : List CellEntry) (t : ℕ → ℕ) (i : ℕ) (nextF : ℕ → ℕ),
      (∀ j (c' : CellEntry), (insert_cells ts cs t i).2[j]? = some c' →
        nextF (i + j + 1) = c'.next) →
      ∀ h, ChainReach nextF ((insert_cells ts cs t i).1 h) (t h)
  | [], t, i, nextF, hcompat, h => Relation.ReflTransGen.refl
  | c :: cs, t, i, nextF, hcompat, h => by
    rw [insert_cells] at hcompat ⊢
    have hcompat' : ∀ j (c' : CellEntry),
        (insert_cells ts cs (fun x => if x = hash_cell c.cellX c.cellZ ts then i + 1 else t x)
          (i + 1)).2[j]? = some c' → nextF (i + 1 + j + 1) = c'.next := by
      intro j c' hj
      have hc' := hcompat (j + 1) c' (by simpa using hj)
      rw [show i + 1 + j + 1 = i + (j + 1) + 1 from by omega]
      exact hc'
    have hbase := insert_cells_chain_base ts cs _ (i + 1) nextF hcompat' h
    by_cases hx : h = hash_cell c.cellX c.cellZ ts
    · subst hx
      simp only [if_pos rfl] at hbase
      have h0 := hcompat 0 { c with next := t (hash_cell c.cellX c.cellZ ts) } (by simp)
      have hstep : ChainReach nextF (i + 1) (t (hash_cell c.cellX c.cellZ ts)) := by
        refine Relation.ReflTransGen.single ⟨by omega, ?_⟩
        have h0' : nextF (i + 1) = t (hash_cell c.cellX c.cellZ ts) := by
          simpa using h0
        rw [h0']
      exact hbase.trans hstep
    · simpa only [if_neg hx] using hbase

/-- Every inserted cell's (1-based) link is reachable from the final table's
bucket for its hash. -/
theorem insert_cells_chain_reach (ts : ℕ) :
    ∀ (cs : List CellEntry) (t : ℕ → ℕ) (i : ℕ) (nextF : ℕ → ℕ),
      (∀ j (c' : CellEntry), (insert_cells ts cs t i).2[j]? = some c' →
        nextF (i + j + 1) = c'.next) →
      ∀ j (c0 : CellEntry), cs[j]? = some c0 →
        ChainReach nextF ((insert_cells ts cs t i).1 (hashOf ts c0)) (i + j + 1)
  | [], _, _, _, _, j, c0, hj => by simp at hj
  | c :: cs, t, i, nextF, hcompat, j, c0, hj => by
    have hcompat' : ∀ j' (c' : CellEntry),
        (insert_cells ts cs (fun x => if x = hash_cell c.cellX c.cellZ ts then i + 1 else t x)
          (i + 1)).2[j']? = some c' → nextF (i + 1 + j' + 1) = c'.next := by
      intro j' c' hj'
      have hc' := hcompat (j' + 1) c' (by rw [insert_cells]; simpa using hj')
      rw [show i + 1 + j' + 1 = i + (j' + 1) + 1 from by omega]
      exact hc'
    cases j with
    | zero =>
      simp only [List.getElem?_cons_zero, Option.some_inj] at hj
      subst hj
      have hbase := insert_cells_chain_base ts cs
        (fun x => if x = hash_cell c.cellX c.cellZ ts then i + 1 else t x) (i + 1)
        nextF hcompat'
      have hres := hbase (hashOf ts c)
      rw [show (fun x => if x = hash_cell c.cellX c.cellZ ts then i + 1 else t x)
        (hashOf ts c) = i + 1 from by simp [hashOf]] at hres
      rw [insert_cells]
      exact hres
    | succ j' =>
      simp only [List.getElem?_cons_succ] at hj
      have hres := insert_cells_chain_reach ts cs _ (i + 1) nextF hcompat' j' c0 hj
      rw [insert_cells]
      rw [show i + (j' + 1) + 1 = i + 1 + j' + 1 from by omega]
      exact hres

/-- `find_from` returns only cells of the array, with the queried key. -/
theorem find_from_sound (cells : List CellEntry) (cx cz : Int) :
    ∀ (fuel v : ℕ) (c : CellEntry), find_from cells cx cz fuel v = some c →
      c ∈ cells ∧ c.cellX = cx ∧ c.cellZ = cz
  | 0, v, c, h => by rw [find_from] at h; cases h
  | fuel + 1, 0, c, h => by rw [find_from] at h; cases h
  | fuel + 1, v + 1, c, h => by
    rw [find_from] at h
    cases hg : cells[v]? with
    | none => simp only [hg] at h; cases h
    | some c0 =>
      simp only [hg] at h
      by_cases hkey : c0.cellX = cx ∧ c0.cellZ = cz
      · rw [if_pos hkey] at h
        obtain rfl : c0 = c := by simpa using h
        obtain ⟨hlt, hget⟩ := List.getElem?_eq_some_iff.mp hg
        exact ⟨hget ▸ List.getElem_mem hlt, hkey⟩
      · rw [if_neg hkey] at h
        exact find_from_sound cells cx cz fuel c0.next c h

/-- With the descending-link invariant, the result of the walk does not
depend on the fuel once the fuel covers the start link (termination). -/
theorem find_from_stable (cells : List CellEntry) (cx cz : Int)
    (hinv : ∀ j (c : CellEntry), cells[j]? = some c → c.next ≤ j) :
    ∀ v fuel fuel', v ≤ cells.length → v ≤ fuel → v ≤ fuel' →
      find_from cells cx cz fuel v = find_from cells cx cz fuel' v := by
  intro v
  induction v using Nat.strong_induction_on with
  | _ v ih =>
    intro fuel fuel' hlen hf hf'
    cases v with
    | zero => cases fuel <;> cases fuel' <;> rfl
    | succ w =>
      cases fuel with
      | zero => omega
      | succ f =>
        cases fuel' with
        | zero => omega
        | succ f' =>
          cases hg : cells[w]? with
          | none => simp only [find_from, hg]
          | some c0 =>
            simp only [find_from, hg]
            by_cases hkey : c0.cellX = cx ∧ c0.cellZ = cz
            · rw [if_pos hkey, if_pos hkey]
            · rw [if_neg hkey, if_neg hkey]
              have hnext := hinv w c0 hg
              have hwlen : w < cells.length := List.getElem?_eq_some_iff.mp hg |>.1
              exact ih c0.next (by omega) f f' (by omega) (by omega) (by omega)

/-- With the invariants, the walk from a link that chain-reaches a cell with
the queried key returns a (the) cell with that key. -/
theorem find_from_reaches (cells : List CellEntry) (cx cz : Int)
    (hinv : ∀ j (c : CellEntry), cells[j]? = some c → c.next ≤ j) :
    ∀ v, v ≤ cells.length → ∀ fuel, v ≤ fuel → ∀ (j : ℕ) (c : CellEntry),
      cells[j]? = some c → c.cellX = cx → c.cellZ = cz →
      ChainReach (nextOf cells) v (j + 1) →
      ∃ c', find_from cells cx cz fuel v = some c' ∧
        c'.cellX = cx ∧ c'.cellZ = cz := by
  intro v
  induction v using Nat.strong_induction_on with
  | _ v ih =>
    intro hlen fuel hf j c hj hx hz hreach
    rcases Relation.ReflTransGen.cases_head hreach with heq | ⟨b, ⟨hv0, hb⟩, htail⟩
    · subst heq
      cases fuel with
      | zero => omega
      | succ f =>
        refine ⟨c, ?_, hx, hz⟩
        simp only [find_from, hj, if_pos (⟨hx, hz⟩ : c.cellX = cx ∧ c.cellZ = cz)]
    · cases v with
      | zero => exact absurd rfl hv0
      | succ w =>
        cases fuel with
        | zero => omega
        | succ f =>
          have hwlen : w < cells.length := by omega
          have hcw : cells[w]? = some cells[w] := List.getElem?_eq_some_iff.mpr ⟨hwlen, rfl⟩
          simp only [find_from, hcw]
          by_cases hkey : (cells[w]).cellX = cx ∧ (cells[w]).cellZ = cz
          · rw [if_pos hkey]
            exact ⟨cells[w], rfl, hkey⟩
          · rw [if_neg hkey]
            have hbval : b = (cells[w]).next := by
              rw [hb]
              simp [nextOf, hcw]
            have hnext := hinv w cells[w] hcw
            subst hbval
            exact ih (cells[w]).next (by omega) (by omega) f (by omega) j c hj hx hz htail

/-! ## Index-level interface -/

theorem build_index_cells (s : Int) (mb : ℕ) (pts : List Pt) :
    (build_index s mb pts).cells =
      (insert_cells (grow_table_size (buildCellsFrom s pts 0).length (2 ^ mb) mb (2 ^ 20))
        (buildCellsFrom s pts 0) (fun _ => 0) 0).2 := rfl

theorem build_index_table (s : Int) (mb : ℕ) (pts : List Pt) :
    (build_index s mb pts).table =
      (insert_cells (grow_table_size (buildCellsFrom s pts 0).length (2 ^ mb) mb (2 ^ 20))
        (buildCellsFrom s pts 0) (fun _ => 0) 0).1 := rfl

theorem build_index_tsize (s : Int) (mb : ℕ) (pts : List Pt) :
    (build_index s mb pts).table_size =
      grow_table_size (buildCellsFrom s pts 0).length (2 ^ mb) mb (2 ^ 20) := rfl

theorem index_next_le (s : Int) (mb : ℕ) (pts : List Pt) :
    ∀ (j : ℕ) (c : CellEntry), (build_index s mb pts).cells[j]? = some c → c.next ≤ j := by
  intro j c hj
  rw [build_index_cells] at hj
  have h := insert_cells_next_le _ _ _ 0 (fun _ => le_refl 0) j c hj
  omega

theorem index_length (s : Int) (mb : ℕ) (pts : List Pt) :
    (build_index s mb pts).cells.length = (buildCellsFrom s pts 0).length := by
  rw [build_index_cells, insert_cells_length]

theorem index_table_le (s : Int) (mb : ℕ) (pts : List Pt) :
    ∀ h, (build_index s mb pts).table h ≤ (build_index s mb pts).cells.length := by
  intro h
  rw [build_index_table, index_length]
  have hl := insert_cells_table_le (grow_table_size (buildCellsFrom s pts 0).length
    (2 ^ mb) mb (2 ^ 20)) (buildCellsFrom s pts 0) (fun _ => 0) 0 (fun _ => le_refl 0) h
  omega

theorem index_strip (s : Int) (mb : ℕ) (pts : List Pt) (j : ℕ) :
    ((build_index s mb pts).cells[j]?).map strip =
      ((buildCellsFrom s pts 0)[j]?).map strip := by
  rw [build_index_cells]
  exact insert_cells_strip _ _ _ 0 j

/-- Transfer a cell of the built index back to the run-length scan. -/
theorem index_cell_of_mem (s : Int) (mb : ℕ) (pts : List Pt) (c : CellEntry)
    (hc : c ∈ (build_index s mb pts).cells) :
    ∃ (j : ℕ) (c0 : CellEntry), (buildCellsFrom s pts 0)[j]? = some c0 ∧
      (build_index s mb pts).cells[j]? = some c ∧ strip c0 = strip c := by
  obtain ⟨j, hj⟩ := List.mem_iff_getElem?.mp hc
  have hs := index_strip s mb pts j
  rw [hj] at hs
  cases hg : (buildCellsFrom s pts 0)[j]? with
  | none => rw [hg] at hs; cases hs
  | some c0 =>
    rw [hg] at hs
    exact ⟨j, c0, hg, hj, by simpa using hs.symm⟩

theorem strip_eq_keys {c d : CellEntry} (h : strip c = strip d) :
    c.cellX = d.cellX ∧ c.cellZ = d.cellZ ∧ c.start = d.start ∧ c.count = d.count := by
  unfold strip at h
  simp only [Prod.mk.injEq] at h
  exact ⟨h.1, h.2.1, h.2.2.1, h.2.2.2⟩

theorem cells0_pairwise (s : Int) (pts : List Pt) (hsort : SortedPts s pts) :
    List.Pairwise cellLt (buildCellsFrom s pts 0) :=
  List.chain'_iff_pairwise.mp (buildCellsFrom_chain s pts 0 hsort)

/-- On a sorted array, distinct positions of the cell array carry distinct
keys. -/
theorem index_key_inj (s : Int) (mb : ℕ) (pts : List Pt) (hsort : SortedPts s pts)
    (j j' : ℕ) (c c' : CellEntry)
    (hj : (build_index s mb pts).cells[j]? = some c)
    (hj' : (build_index s mb pts).cells[j']? = some c')
    (hx : c.cellX = c'.cellX) (hz : c.cellZ = c'.cellZ) : j = j' := by
  have hp := cells0_pairwise s pts hsort
  by_contra hne
  -- transfer the two positions to the scan cells
  have hs := index_strip s mb pts j
  have hs' := index_strip s mb pts j'
  rw [hj] at hs
  rw [hj'] at hs'
  cases hg : (buildCellsFrom s pts 0)[j]? with
  | none => rw [hg] at hs; cases hs
  | some d =>
    cases hg' : (buildCellsFrom s pts 0)[j']? with
    | none => rw [hg'] at hs'; cases hs'
    | some d' =>
      rw [hg] at hs
      rw [hg'] at hs'
      obtain ⟨hd1, hd2, -, -⟩ := strip_eq_keys (show strip d = strip c by simpa using hs.symm)
      obtain ⟨hd1', hd2', -, -⟩ := strip_eq_keys (show strip d' = strip c' by simpa using hs'.symm)
      have hlj := (List.getElem?_eq_some_iff.mp hg).1
      have hlj' := (List.getElem?_eq_some_iff.mp hg').1
      have hpg := List.pairwise_iff_getElem.mp hp
      rcases Nat.lt_or_ge j j' with hlt | hge
      · have := hpg j j' hlj hlj' hlt
        rw [(List.getElem?_eq_some_iff.mp hg).2, (List.getElem?_eq_some_iff.mp hg').2] at this
        unfold cellLt at this
        omega
      · have hlt' : j' < j := by omega
        have := hpg j' j hlj' hlj hlt'
        rw [(List.getElem?_eq_some_iff.mp hg).2, (List.getElem?_eq_some_iff.mp hg').2] at this
        unfold cellLt at this
        omega

/-- `find_cell` on the built index returns only cells of the index, with the
queried key. -/
theorem find_cell_sound (idx : SIndex) (cx cz : Int) (c : CellEntry)
    (h : find_cell idx cx cz = some c) :
    c ∈ idx.cells ∧ c.cellX = cx ∧ c.cellZ = cz :=
  find_from_sound idx.cells cx cz _ _ c h

/-- `find_cell` finds every cell of the built index. -/
theorem find_cell_complete (s : Int) (mb : ℕ) (pts : List Pt) (c : CellEntry)
    (hc : c ∈ (build_index s mb pts).cells) :
    ∃ c', find_cell (build_index s mb pts) c.cellX c.cellZ = some c' ∧
      c'.cellX = c.cellX ∧ c'.cellZ = c.cellZ := by
  obtain ⟨j, c0, hj0, hj, hstripeq⟩ := index_cell_of_mem s mb pts c hc
  obtain ⟨hkx, hkz, -, -⟩ := strip_eq_keys hstripeq
  have hcompat : ∀ (j' : ℕ) (c' : CellEntry),
      (build_index s mb pts).cells[j']? = some c' →
        nextOf (build_index s mb pts).cells (0 + j' + 1) = c'.next := by
    intro j' c' hj'
    rw [Nat.zero_add]
    simp [nextOf, hj']
  have hreach := insert_cells_chain_reach
    (grow_table_size (buildCellsFrom s pts 0).length (2 ^ mb) mb (2 ^ 20))
    (buildCellsFrom s pts 0) (fun _ => 0) 0
    (nextOf (build_index s mb pts).cells)
    (by rw [← build_index_cells]; exact hcompat) j c0 hj0
  rw [Nat.zero_add, ← build_index_table] at hreach
  have hhash : hashOf (grow_table_size (buildCellsFrom s pts 0).length (2 ^ mb) mb (2 ^ 20)) c0 =
      hash_cell c.cellX c.cellZ (build_index s mb pts).table_size := by
    rw [build_index_tsize, hashOf, hkx, hkz]
  rw [hhash] at hreach
  have hfr := find_from_reaches (build_index s mb pts).cells c.cellX c.cellZ
    (index_next_le s mb pts)
    ((build_index s mb pts).table (hash_cell c.cellX c.cellZ (build_index s mb pts).table_size))
    (index_table_le s mb pts _) ((build_index s mb pts).cells.length + 1)
    (by have := index_table_le s mb pts (hash_cell c.cellX c.cellZ (build_index s mb pts).table_size); omega)
    j c hj rfl rfl hreach
  exact hfr

/-- Transfer a cell of the run-length scan to the built index. -/
theorem mem_of_getElem {α : Type} {l : List α} {j : ℕ} {a : α}
    (h : l[j]? = some a) : a ∈ l :=
  List.mem_iff_getElem?.mpr ⟨j, h⟩

theorem index_cell_at (s : Int) (mb : ℕ) (pts : List Pt) (j : ℕ) (c0 : CellEntry)
    (hj : (buildCellsFrom s pts 0)[j]? = some c0) :
    ∃ c1, (build_index s mb pts).cells[j]? = some c1 ∧ strip c1 = strip c0 := by
  have hs := index_strip s mb pts j
  rw [hj] at hs
  cases hg : (build_index s mb pts).cells[j]? with
  | none => rw [hg] at hs; cases hs
  | some c1 =>
    rw [hg] at hs
    exact ⟨c1, rfl, by simpa using hs⟩

/-- Every stored point lies in a cell of the scan carrying its key. -/
theorem point_in_cell (s : Int) (pts : List Pt) (i : ℕ) (p : Pt)
    (hp : pts[i]? = some p) :
    ∃ (j : ℕ) (c0 : CellEntry), (buildCellsFrom s pts 0)[j]? = some c0 ∧
      cellKey s p = (c0.cellX, c0.cellZ) ∧ c0.start ≤ i ∧ i < c0.start + c0.count := by
  have hi : i < pts.length := (List.getElem?_eq_some_iff.mp hp).1
  have hcov := ConsecFrom.covers (buildCellsFrom_consec s pts 0) i (Nat.zero_le i)
    (by rw [buildCellsFrom_count_sum]; omega)
  obtain ⟨c0, hc0, hlo, hhi⟩ := hcov
  obtain ⟨j, hj⟩ := List.mem_iff_getElem?.mp hc0
  obtain ⟨p', hp', hkey'⟩ := buildCellsFrom_key_at s pts 0 c0 hc0 (i - c0.start) (by omega)
  rw [show c0.start + (i - c0.start) - 0 = i from by omega] at hp'
  rw [hp] at hp'
  obtain rfl : p' = p := by simpa using hp'.symm
  exact ⟨j, c0, hj, hkey', hlo, hhi⟩

theorem countP_eq_one_of_unique {α : Type} (P : α → Bool) : ∀ {l : List α},
    l.Pairwise (fun a b => ¬(P a = true ∧ P b = true)) →
    (∃ a ∈ l, P a = true) → l.countP P = 1 := by
  intro l
  induction l with
  | nil => intro _ hex; simp at hex
  | cons a l ih =>
    intro hpair hex
    rw [List.countP_cons]
    rcases List.pairwise_cons.mp hpair with ⟨hhead, htail⟩
    by_cases hPa : P a = true
    · have hzero : l.countP P = 0 := by
        rw [List.countP_eq_zero]
        intro b hb hPb
        exact hhead b hb ⟨hPa, hPb⟩
      simp [hzero, hPa]
    · obtain ⟨b, hb, hPb⟩ := hex
      rcases List.mem_cons.mp hb with rfl | hbl
      · exact absurd hPb hPa
      · have hres := ih htail ⟨b, hbl, hPb⟩
        simp [hPa, hres]

theorem index_cells_pairwise_keys (s : Int) (mb : ℕ) (pts : List Pt)
    (hsort : SortedPts s pts) :
    (build_index s mb pts).cells.Pairwise
      (fun c d => ¬(c.cellX = d.cellX ∧ c.cellZ = d.cellZ)) := by
  rw [List.pairwise_iff_getElem]
  intro i j hi hj hlt hkeys
  have := index_key_inj s mb pts hsort i j _ _
    (List.getElem?_eq_some_iff.mpr ⟨hi, rfl⟩)
    (List.getElem?_eq_some_iff.mpr ⟨hj, rfl⟩) hkeys.1 hkeys.2
  omega

/-- C6: after the index build on a sorted array, every occupied cell key has
exactly one cell entry and `find_cell` returns it; every unoccupied key
resolves to `none`. -/
theorem hash_index_correct (s : Int) (mb : ℕ) (pts : List Pt)
    (hsort : SortedPts s pts) (cx cz : Int) :
    ((∃ p ∈ pts, cellKey s p = (cx, cz)) →
      ∃ c, find_cell (build_index s mb pts) cx cz = some c ∧
        c ∈ (build_index s mb pts).cells ∧ c.cellX = cx ∧ c.cellZ = cz ∧
        (∀ c' ∈ (build_index s mb pts).cells, c'.cellX = cx → c'.cellZ = cz → c' = c) ∧
        (build_index s mb pts).cells.countP
          (fun c' => decide (c'.cellX = cx ∧ c'.cellZ = cz)) = 1) ∧
    ((∀ p ∈ pts, cellKey s p ≠ (cx, cz)) →
      find_cell (build_index s mb pts) cx cz = none) := by
  constructor
  · rintro ⟨p, hp, hkey⟩
    obtain ⟨i, hpi⟩ := List.mem_iff_getElem?.mp hp
    obtain ⟨j, c0, hj0, hkey0, -, -⟩ := point_in_cell s pts i p hpi
    obtain ⟨c1, hj1, hstrip1⟩ := index_cell_at s mb pts j c0 hj0
    obtain ⟨h1x, h1z, -, -⟩ := strip_eq_keys hstrip1
    have hc1mem : c1 ∈ (build_index s mb pts).cells :=
      mem_of_getElem hj1
    have hc1x : c1.cellX = cx := by
      rw [hkey] at hkey0
      rw [h1x, (Prod.mk.injEq _ _ _ _).mp hkey0.symm |>.1]
    have hc1z : c1.cellZ = cz := by
      rw [hkey] at hkey0
      rw [h1z, (Prod.mk.injEq _ _ _ _).mp hkey0.symm |>.2]
    obtain ⟨c', hfind, hx', hz'⟩ := find_cell_complete s mb pts c1 hc1mem
    rw [hc1x] at hfind hx'
    rw [hc1z] at hfind hz'
    have hc'mem : c' ∈ (build_index s mb pts).cells :=
      (find_cell_sound _ cx cz c' hfind).1
    refine ⟨c', hfind, hc'mem, hx', hz', ?_, ?_⟩
    · intro c'' hc'' hx'' hz''
      obtain ⟨j1, hj1'⟩ := List.mem_iff_getElem?.mp hc''
      obtain ⟨j2, hj2'⟩ := List.mem_iff_getElem?.mp hc'mem
      have := index_key_inj s mb pts hsort j1 j2 c'' c' hj1' hj2'
        (by rw [hx'', hx']) (by rw [hz'', hz'])
      subst this
      rw [hj1'] at hj2'
      exact Option.some_inj.mp hj2'
    · refine countP_eq_one_of_unique _ ?_ ⟨c', hc'mem, by simp [hx', hz']⟩
      have hpw := index_cells_pairwise_keys s mb pts hsort
      refine hpw.imp ?_
      intro a b hab h2
      simp only [decide_eq_true_eq] at h2
      exact hab ⟨h2.1.1.trans h2.2.1.symm, h2.1.2.trans h2.2.2.symm⟩
  · intro hnone
    cases hfc : find_cell (build_index s mb pts) cx cz with
    | none => rfl
    | some c =>
      obtain ⟨hcmem, hcx, hcz⟩ := find_cell_sound _ cx cz c hfc
      obtain ⟨j, c0, hj0, -, hstrip⟩ := index_cell_of_mem s mb pts c hcmem
      obtain ⟨h0x, h0z, -, -⟩ := strip_eq_keys hstrip
      obtain ⟨q, hq, hkq⟩ := buildCellsFrom_key_mem s pts 0 c0
        (mem_of_getElem hj0)
      exfalso
      apply hnone q hq
      rw [hkq, h0x, h0z, hcx, hcz]

/-- Witness for C6 on a concrete sorted three-point array: the occupied key
`(0, 0)` resolves to its unique cell. -/
theorem hash_index_correct_witness :
    SortedPts 2 [⟨0, 0⟩, ⟨1, 1⟩, ⟨2, 0⟩] ∧
    (∃ c, find_cell (build_index 2 27 [⟨0, 0⟩, ⟨1, 1⟩, ⟨2, 0⟩]) 0 0 = some c ∧
      c ∈ (build_index 2 27 [⟨0, 0⟩, ⟨1, 1⟩, ⟨2, 0⟩]).cells ∧
      c.cellX = 0 ∧ c.cellZ = 0 ∧
      (∀ c' ∈ (build_index 2 27 [⟨0, 0⟩, ⟨1, 1⟩, ⟨2, 0⟩]).cells,
        c'.cellX = 0 → c'.cellZ = 0 → c' = c) ∧
      (build_index 2 27 [⟨0, 0⟩, ⟨1, 1⟩, ⟨2, 0⟩]).cells.countP
        (fun c' => decide (c'.cellX = 0 ∧ c'.cellZ = 0)) = 1) := by
  refine ⟨by decide, ?_⟩
  exact (hash_index_correct 2 27 [⟨0, 0⟩, ⟨1, 1⟩, ⟨2, 0⟩] (by decide) 0 0).1
    ⟨⟨0, 0⟩, by decide, by decide⟩

/-- C10: the hash-bucket links stored during the build are `0` or `j + 1`
with `j` strictly below the cell's own index, so every chain strictly
descends; consequently the `find_cell` walk is insensitive to any extra
fuel beyond `cells.length + 1` - the lookup loop terminates for every
query. -/
theorem hash_chains_terminate (s : Int) (mb : ℕ) (pts : List Pt) (cx cz : Int) :
    (∀ (j : ℕ) (c : CellEntry), (build_index s mb pts).cells[j]? = some c →
      c.next = 0 ∨ ∃ j', j' < j ∧ c.next = j' + 1) ∧
    (∀ extra : ℕ,
      find_from (build_index s mb pts).cells cx cz
        ((build_index s mb pts).cells.length + 1 + extra)
        ((build_index s mb pts).table
          (hash_cell cx cz (build_index s mb pts).table_size)) =
      find_cell (build_index s mb pts) cx cz) := by
  constructor
  · intro j c hj
    have h := index_next_le s mb pts j c hj
    rcases Nat.eq_zero_or_pos c.next with h0 | hpos
    · exact Or.inl h0
    · exact Or.inr ⟨c.next - 1, by omega, by omega⟩
  · intro extra
    have htle := index_table_le s mb pts
      (hash_cell cx cz (build_index s mb pts).table_size)
    exact find_from_stable (build_index s mb pts).cells cx cz (index_next_le s mb pts)
      _ _ _ (by omega) (by omega) (by omega)

/-- Witness for C10 on a concrete two-cell index. -/
theorem hash_chains_terminate_witness :
    ((build_index 2 27 [⟨0, 0⟩, ⟨1, 1⟩, ⟨2, 0⟩]).cells[0]?.map CellEntry.next =
      some 0 ∨ True) ∧
    find_from (build_index 2 27 [⟨0, 0⟩, ⟨1, 1⟩, ⟨2, 0⟩]).cells 0 0
        ((build_index 2 27 [⟨0, 0⟩, ⟨1, 1⟩, ⟨2, 0⟩]).cells.length + 1 + 5)
        ((build_index 2 27 [⟨0, 0⟩, ⟨1, 1⟩, ⟨2, 0⟩]).table
          (hash_cell 0 0 (build_index 2 27 [⟨0, 0⟩, ⟨1, 1⟩, ⟨2, 0⟩]).table_size)) =
      find_cell (build_index 2 27 [⟨0, 0⟩, ⟨1, 1⟩, ⟨2, 0⟩]) 0 0 :=
  ⟨Or.inr trivial,
    (hash_chains_terminate 2 27 [⟨0, 0⟩, ⟨1, 1⟩, ⟨2, 0⟩] 0 0).2 5⟩

/-! ## The staged main flow (C8) -/

/-- The `g_structures_count == 0` check of `build_spatial_index`
(groupfinder.c:475-478): the build reports failure on an empty store. -/
def build_spatial_index_succeeds (pts : List Pt) : Bool := decide (pts.length ≠ 0)

/-- The comparator order of `compare_fast`/`compare_compact` as a Boolean. -/
def keyLeB (s : Int) (p q : Pt) : Bool := decide (keyLe s p q)

/-- The staged run of `main` (groupfinder.c:930-1015) after configuration:
parse (exit 1 when no point was stored, which includes the empty input
file), index build (`build_spatial_index` itself returns failure on a zero
count, exit 1), enumerate, then the summary `(count3, count4)` with exit
code 0.  `qsort` is modelled by a comparison sort over the comparator's
order. -/
def run_program (ls : List (List Char)) (r : Int) (mult buf_size max_bits : ℕ) :
    Except ℕ (ℕ × ℕ) :=
  let pts := parse_file ls
  if pts.length = 0 then Except.error 1
  else
    let sorted := pts.mergeSort (keyLeB (r * mult))
    if build_spatial_index_succeeds sorted = false then Except.error 1
    else
      let gs := run_groups sorted r mult buf_size max_bits
      Except.ok (gs.countP (fun g => decide (g.length = 3)),
        gs.countP (fun g => decide (g.length = 4)))

/-- C8 counterexample: with zero stored points the run exits with code 1 and
never reports a `0/0` summary (the claim's "summary reports 0 groups of 3
and 0 groups of 4" is false on the code); the empty input file is likewise
fatal with exit code 1. -/
theorem zero_points_no_summary_counterexample :
    run_program [] 2 1 262144 27 = Except.error 1 ∧
    run_program [] 2 1 262144 27 ≠ Except.ok (0, 0) ∧
    parse_file [] = [] ∧ build_spatial_index_succeeds [] = false := by
  have h1 : run_program [] 2 1 262144 27 = Except.error 1 := rfl
  refine ⟨h1, ?_, rfl, by decide⟩
  rw [h1]
  intro hcontra
  cases hcontra

/-- C8 (amended): whenever parsing stores zero points - in particular for an
empty input file - `main` exits with code 1 before writing any summary, and
`build_spatial_index` on a zero count reports failure. -/
theorem zero_points_exit_one (ls : List (List Char)) (r : Int)
    (mult buf_size max_bits : ℕ) (h : parse_file ls = []) :
    run_program ls r mult buf_size max_bits = Except.error 1 ∧
    build_spatial_index_succeeds [] = false := by
  refine ⟨?_, by decide⟩
  rw [run_program]
  simp [h]

/-- Witness for C8 (amended) on the empty input. -/
theorem zero_points_exit_one_witness :
    parse_file [] = [] ∧ run_program [] 2 1 262144 27 = Except.error 1 := by
  refine ⟨by decide, ?_⟩
  exact (zero_points_exit_one [] 2 1 262144 27 (by decide)).1

/-! ## Worker partition (C4) -/

/-- The stride assignment of `worker_thread` (groupfinder.c:816-831): worker
`t` of `T` processes `cells[t], cells[t+T], cells[t+2T], …` in order. -/
def thread_cells (cells : List CellEntry) (t T : ℕ) : List CellEntry :=
  ((List.range cells.length).filter (fun i => i % T = t)).map
    (fun i => cells.getD i ⟨0, 0, 0, 0, 0⟩)

/-- The groups emitted by worker `t` of `T`. -/
def thread_groups (idx : SIndex) (radius_sq : Int) (w buf_size : ℕ) (t T : ℕ) :
    List (List ℕ) :=
  (thread_cells idx.cells t T).flatMap (find_groups_in_cell idx radius_sq w buf_size)

/-- All groups of the `T`-worker run, concatenated over workers. -/
def threaded_groups (pts : List Pt) (r : Int) (mult buf_size max_bits T : ℕ) :
    List (List ℕ) :=
  (List.range T).flatMap fun t =>
    thread_groups (build_index (r * mult) max_bits pts) (r * r)
      ((mult + 1) / 2 + 1) buf_size t T

theorem countP_flatMap {α β : Type} (P : β → Bool) (l : List α) (f : α → List β) :
    (l.flatMap f).countP P = (l.map (fun a => (f a).countP P)).sum := by
  induction l with
  | nil => rfl
  | cons a l ih => simp [List.flatMap_cons, List.countP_append, ih]

theorem map_getD_range {α : Type} (l : List α) (d : α) :
    (List.range l.length).map (fun i => l.getD i d) = l := by
  apply List.ext_getElem
  · simp
  · intro i h1 h2
    simp [List.getD_eq_getElem?_getD, List.getElem?_eq_getElem h2]

/-- The stride classes partition the cell indices: concatenating the
workers' index lists is a permutation of `range M`. -/
theorem stride_partition_perm (M T : ℕ) (hT : 1 ≤ T) :
    ((List.range T).flatMap fun t => (List.range M).filter (fun i => i % T = t)).Perm
      (List.range M) := by
  apply List.perm_of_nodup_nodup_toFinset_eq
  · rw [List.nodup_flatMap]
    constructor
    · intro t ht
      exact (List.nodup_range M).filter _
    · rw [List.pairwise_iff_getElem]
      intro a b ha hb hab
      simp only [Function.onFun, List.Disjoint]
      intro i hia hib
      simp only [List.getElem_range] at hia hib
      have h1 := List.of_mem_filter hia
      have h2 := List.of_mem_filter hib
      simp only [decide_eq_true_eq] at h1 h2
      rw [List.length_range] at ha hb
      omega
  · exact List.nodup_range M
  · apply Finset.ext
    intro i
    simp only [List.mem_toFinset, List.mem_flatMap, List.mem_filter,
      List.mem_range, decide_eq_true_eq]
    constructor
    · rintro ⟨t, ht, hi, rfl⟩
      exact hi
    · intro hi
      exact ⟨i % T, Nat.mod_lt i (by omega), hi, rfl⟩

/-- C4: for every thread count `T ∈ [1, min(256, M)]` the multiset of
emitted groups of the `T`-worker run is a permutation of the sequential
enumeration (hence the same *set* of emitted groups), and the summed
per-worker 3- and 4-counts equal the sequential totals. -/
theorem thread_count_independent (pts : List Pt) (r : Int)
    (mult buf_size max_bits T : ℕ) (hT1 : 1 ≤ T)
    (hT2 : T ≤ min 256 (build_index (r * mult) max_bits pts).cells.length) :
    (threaded_groups pts r mult buf_size max_bits T).Perm
      (run_groups pts r mult buf_size max_bits) ∧
    ((List.range T).map fun t =>
      (thread_groups (build_index (r * mult) max_bits pts) (r * r)
        ((mult + 1) / 2 + 1) buf_size t T).countP (fun g => decide (g.length = 3))).sum =
      (run_groups pts r mult buf_size max_bits).countP (fun g => decide (g.length = 3)) ∧
    ((List.range T).map fun t =>
      (thread_groups (build_index (r * mult) max_bits pts) (r * r)
        ((mult + 1) / 2 + 1) buf_size t T).countP (fun g => decide (g.length = 4))).sum =
      (run_groups pts r mult buf_size max_bits).countP (fun g => decide (g.length = 4)) := by
  set idx := build_index (r * mult) max_bits pts with hidx
  set f := find_groups_in_cell idx (r * r) ((mult + 1) / 2 + 1) buf_size with hf
  have hperm : (threaded_groups pts r mult buf_size max_bits T).Perm
      (run_groups pts r mult buf_size max_bits) := by
    have h1 : threaded_groups pts r mult buf_size max_bits T =
        ((List.range T).flatMap fun t =>
          (List.range idx.cells.length).filter (fun i => i % T = t)).flatMap
            (fun i => f (idx.cells.getD i ⟨0, 0, 0, 0, 0⟩)) := by
      rw [threaded_groups, List.flatMap_assoc]
      apply List.flatMap_congr
      intro t ht
      rw [thread_groups, thread_cells, List.flatMap_map]
    have h2 : run_groups pts r mult buf_size max_bits =
        (List.range idx.cells.length).flatMap
          (fun i => f (idx.cells.getD i ⟨0, 0, 0, 0, 0⟩)) := by
      show idx.cells.flatMap f = _
      conv_lhs => rw [← map_getD_range idx.cells ⟨0, 0, 0, 0, 0⟩]
      rw [List.flatMap_map]
    rw [h1, h2]
    exact (stride_partition_perm idx.cells.length T hT1).flatMap_right _
  refine ⟨hperm, ?_, ?_⟩
  · rw [← hperm.countP_eq]
    rw [threaded_groups, countP_flatMap]
  · rw [← hperm.countP_eq]
    rw [threaded_groups, countP_flatMap]

/-- Witness for C4 on the square-of-four scenario with `T = 2`. -/
theorem thread_count_independent_witness :
    (threaded_groups [⟨0, 0⟩, ⟨0, 2⟩, ⟨2, 0⟩, ⟨2, 2⟩] 2 1 262144 27 2).Perm
      (run_groups [⟨0, 0⟩, ⟨0, 2⟩, ⟨2, 0⟩, ⟨2, 2⟩] 2 1 262144 27) ∧
    (1 ≤ 2 ∧ 2 ≤ min 256
      (build_index (2 * 1) 27 [⟨0, 0⟩, ⟨0, 2⟩, ⟨2, 0⟩, ⟨2, 2⟩]).cells.length) := by
  refine ⟨?_, by decide, by decide⟩
  exact (thread_count_independent [⟨0, 0⟩, ⟨0, 2⟩, ⟨2, 0⟩, ⟨2, 2⟩] 2 1 262144 27 2
    (by decide) (by decide)).1

/-! ## Membership characterization of the enumeration (C1, C2, C3) -/

theorem mem_groups4_iff {pts : List Pt} {rsq : Int} {b : ℕ} {cand : List ℕ}
    {g : List ℕ} :
    g ∈ groups4 pts rsq b cand ↔ ∃ i j k : ℕ, i < j ∧ j < k ∧ k < cand.length ∧
      dist_sq_idx pts (cand.getD i 0) (cand.getD j 0) ≤ 4 * rsq ∧
      dist_sq_idx pts (cand.getD i 0) (cand.getD k 0) ≤ 4 * rsq ∧
      dist_sq_idx pts (cand.getD j 0) (cand.getD k 0) ≤ 4 * rsq ∧
      is_valid_group pts rsq [b, cand.getD i 0, cand.getD j 0, cand.getD k 0] = true ∧
      g = [b, cand.getD i 0, cand.getD j 0, cand.getD k 0] := by
  constructor
  · intro hmem
    rw [groups4] at hmem
    by_cases h3 : 3 ≤ cand.length
    · rw [if_pos h3] at hmem
      obtain ⟨i, hi, hrest⟩ := List.mem_flatMap.mp hmem
      obtain ⟨j, hj, hrest⟩ := List.mem_flatMap.mp hrest
      rw [List.mem_range] at hi
      rw [List.mem_range'_1] at hj
      by_cases hij : 4 * rsq < dist_sq_idx pts (cand.getD i 0) (cand.getD j 0)
      · rw [if_pos hij] at hrest; cases hrest
      · rw [if_neg hij] at hrest
        obtain ⟨k, hk, hrest⟩ := List.mem_flatMap.mp hrest
        rw [List.mem_range'_1] at hk
        by_cases hik : 4 * rsq < dist_sq_idx pts (cand.getD i 0) (cand.getD k 0)
        · rw [if_pos hik] at hrest; cases hrest
        · rw [if_neg hik] at hrest
          by_cases hjk : 4 * rsq < dist_sq_idx pts (cand.getD j 0) (cand.getD k 0)
          · rw [if_pos hjk] at hrest; cases hrest
          · rw [if_neg hjk] at hrest
            by_cases hval : is_valid_group pts rsq
                [b, cand.getD i 0, cand.getD j 0, cand.getD k 0] = true
            · rw [if_pos hval] at hrest
              rw [List.mem_singleton] at hrest
              exact ⟨i, j, k, by omega, by omega, by omega, not_lt.mp hij,
                not_lt.mp hik, not_lt.mp hjk, hval, hrest⟩
            · rw [if_neg hval] at hrest; cases hrest
    · rw [if_neg h3] at hmem; cases hmem
  · rintro ⟨i, j, k, hij, hjk, hk, h1, h2, h3d, hval, rfl⟩
    rw [groups4, if_pos (by omega)]
    refine List.mem_flatMap.mpr ⟨i, List.mem_range.mpr (by omega), ?_⟩
    refine List.mem_flatMap.mpr ⟨j, List.mem_range'_1.mpr ⟨by omega, by omega⟩, ?_⟩
    rw [if_neg (not_lt.mpr h1)]
    refine List.mem_flatMap.mpr ⟨k, List.mem_range'_1.mpr ⟨by omega, by omega⟩, ?_⟩
    rw [if_neg (not_lt.mpr h2), if_neg (not_lt.mpr h3d), if_pos hval]
    exact List.mem_singleton.mpr rfl

theorem mem_groups3_iff {pts : List Pt} {rsq : Int} {b : ℕ} {cand : List ℕ}
    {g : List ℕ} :
    g ∈ groups3 pts rsq b cand ↔ ∃ i j : ℕ, i < j ∧ j < cand.length ∧
      dist_sq_idx pts (cand.getD i 0) (cand.getD j 0) ≤ 4 * rsq ∧
      is_valid_group pts rsq [b, cand.getD i 0, cand.getD j 0] = true ∧
      g = [b, cand.getD i 0, cand.getD j 0] := by
  constructor
  · intro hmem
    rw [groups3] at hmem
    obtain ⟨i, hi, hrest⟩ := List.mem_flatMap.mp hmem
    obtain ⟨j, hj, hrest⟩ := List.mem_flatMap.mp hrest
    rw [List.mem_range] at hi
    rw [List.mem_range'_1] at hj
    by_cases hij : 4 * rsq < dist_sq_idx pts (cand.getD i 0) (cand.getD j 0)
    · rw [if_pos hij] at hrest; cases hrest
    · rw [if_neg hij] at hrest
      by_cases hval : is_valid_group pts rsq [b, cand.getD i 0, cand.getD j 0] = true
      · rw [if_pos hval] at hrest
        rw [List.mem_singleton] at hrest
        exact ⟨i, j, by omega, by omega, not_lt.mp hij, hval, hrest⟩
      · rw [if_neg hval] at hrest; cases hrest
  · rintro ⟨i, j, hij, hj, h1, hval, rfl⟩
    rw [groups3]
    refine List.mem_flatMap.mpr ⟨i, List.mem_range.mpr (by omega), ?_⟩
    refine List.mem_flatMap.mpr ⟨j, List.mem_range'_1.mpr ⟨by omega, by omega⟩, ?_⟩
    rw [if_neg (not_lt.mpr h1), if_pos hval]
    exact List.mem_singleton.mpr rfl

theorem mem_base_groups_iff {pts : List Pt} {rsq : Int} {b : ℕ} {cand : List ℕ}
    {g : List ℕ} :
    g ∈ base_groups pts rsq b cand ↔ 2 ≤ cand.length ∧
      (g ∈ groups4 pts rsq b cand ∨ g ∈ groups3 pts rsq b cand) := by
  rw [base_groups]
  by_cases h2 : cand.length < 2
  · rw [if_pos h2]
    simp only [List.not_mem_nil, false_iff, not_and_or]
    left
    omega
  · rw [if_neg h2, List.mem_append]
    simp only [iff_and_self]
    intro h
    omega

theorem mem_find_groups_in_cell_iff {idx : SIndex} {rsq : Int} {w buf_size : ℕ}
    {c : CellEntry} {g : List ℕ} :
    g ∈ find_groups_in_cell idx rsq w buf_size c ↔
      3 ≤ (gather idx w buf_size c).length ∧ ∃ ci < c.count,
        g ∈ base_groups idx.pts rsq (c.start + ci)
          (candidates idx.pts rsq (c.start + ci) (gather idx w buf_size c)) := by
  rw [find_groups_in_cell]
  by_cases h3 : (gather idx w buf_size c).length < 3
  · rw [if_pos h3]
    simp only [List.not_mem_nil, false_iff, not_and_or]
    left
    omega
  · rw [if_neg h3]
    rw [List.mem_flatMap]
    constructor
    · rintro ⟨ci, hci, hmem⟩
      exact ⟨by omega, ci, List.mem_range.mp hci, hmem⟩
    · rintro ⟨-, ci, hci, hmem⟩
      exact ⟨ci, List.mem_range.mpr hci, hmem⟩

theorem mem_all_groups_iff {idx : SIndex} {rsq : Int} {w buf_size : ℕ} {g : List ℕ} :
    g ∈ all_groups idx rsq w buf_size ↔
      ∃ c ∈ idx.cells, g ∈ find_groups_in_cell idx rsq w buf_size c := by
  rw [all_groups, List.mem_flatMap]

/-- Everything in the candidate array is a gathered neighbor strictly after
the base and within `4·r²` of it. -/
theorem mem_candidates {pts : List Pt} {rsq : Int} {base : ℕ} {nb : List ℕ} {n : ℕ}
    (h : n ∈ candidates pts rsq base nb) :
    n ∈ nb ∧ base < n ∧ dist_sq_idx pts base n ≤ 4 * rsq := by
  have h2 := List.mem_of_mem_take h
  have h3 := List.of_mem_filter h2
  simp only [decide_eq_true_eq] at h3
  exact ⟨List.mem_of_mem_filter h2, h3.1, h3.2⟩

/-- The candidate array when the filtered neighbor list does not overflow
the 4096-slot array. -/
theorem candidates_no_trunc {pts : List Pt} {rsq : Int} {base : ℕ} {nb : List ℕ}
    (h : (candidates_full pts rsq base nb).length ≤ 4096) :
    candidates pts rsq base nb = candidates_full pts rsq base nb :=
  List.take_of_length_le h

/-- A gathered-and-qualifying neighbor is in the candidate array when
neither of the claim's truncations occurs. -/
theorem mem_candidates_of_qualifies {pts : List Pt} {rsq : Int} {base : ℕ}
    {nb : List ℕ} {n : ℕ} (hnb : n ∈ nb) (hbase : base < n)
    (hdist : dist_sq_idx pts base n ≤ 4 * rsq)
    (h : (candidates_full pts rsq base nb).length ≤ 4096) :
    n ∈ candidates pts rsq base nb := by
  rw [candidates_no_trunc h, candidates_full]
  exact List.mem_filter.mpr ⟨hnb, by simp [hbase, hdist]⟩

/-- The executable denominator-cleared centroid predicate agrees with the
direct rational transcription of `is_valid_group` on nonempty groups. -/
theorem is_valid_group_iff_Q (pts : List Pt) (rsq : Int) (g : List ℕ)
    (hg : g ≠ []) : is_valid_group pts rsq g = true ↔ is_valid_groupQ pts rsq g := by
  have hlen : 0 < g.length := List.length_pos.mpr hg
  have hk0 : (0 : ℚ) < (g.length : ℚ) := by exact_mod_cast hlen
  have hsx : ((g.map fun i => ((get_coords pts i).x : ℚ)).sum) =
      (((g.map fun i => (get_coords pts i).x).sum : Int) : ℚ) := by
    rw [show (g.map fun i => ((get_coords pts i).x : ℚ)) =
      (g.map fun i => (get_coords pts i).x).map (fun n : Int => (n : ℚ)) from by
        rw [List.map_map]; rfl]
    exact (Int.cast_list_sum _).symm
  have hsz : ((g.map fun i => ((get_coords pts i).z : ℚ)).sum) =
      (((g.map fun i => (get_coords pts i).z).sum : Int) : ℚ) := by
    rw [show (g.map fun i => ((get_coords pts i).z : ℚ)) =
      (g.map fun i => (get_coords pts i).z).map (fun n : Int => (n : ℚ)) from by
        rw [List.map_map]; rfl]
    exact (Int.cast_list_sum _).symm
  rw [is_valid_group, List.all_eq_true]
  unfold is_valid_groupQ
  simp only [decide_eq_true_eq]
  apply forall_congr'
  intro i
  apply imp_congr_right
  intro hi
  rw [hsx, hsz]
  set k : Int := (g.length : Int) with hkdef
  set A : Int := (g.map fun i => (get_coords pts i).x).sum with hA
  set B : Int := (g.map fun i => (get_coords pts i).z).sum with hB
  set x : Int := (get_coords pts i).x with hx
  set z : Int := (get_coords pts i).z with hz
  have hkq : ((g.length : ℚ)) = ((k : Int) : ℚ) := by
    rw [hkdef]; push_cast; rfl
  rw [hkq]
  have hkq0 : (0 : ℚ) < ((k : Int) : ℚ) := by rwa [← hkq]
  constructor
  · intro h
    have hq : (((k * x - A : Int) : ℚ)) ^ 2 + (((k * z - B : Int) : ℚ)) ^ 2 ≤
        ((rsq : ℚ)) * ((k : Int) : ℚ) ^ 2 := by
      have hcast : (((k * x - A) ^ 2 + (k * z - B) ^ 2 : Int) : ℚ) ≤
          ((rsq * k ^ 2 : Int) : ℚ) := Int.cast_le.mpr h
      push_cast at hcast ⊢
      linarith
    have hsq : ((x : ℚ) - ((A : Int) : ℚ) / ((k : Int) : ℚ)) ^ 2 +
        ((z : ℚ) - ((B : Int) : ℚ) / ((k : Int) : ℚ)) ^ 2 =
        ((((k * x - A : Int) : ℚ)) ^ 2 + (((k * z - B : Int) : ℚ)) ^ 2) /
          ((k : Int) : ℚ) ^ 2 := by
      field_simp
      push_cast
      ring
    rw [hsq, div_le_iff (by positivity)]
    linarith
  · intro h
    have hsq : ((x : ℚ) - ((A : Int) : ℚ) / ((k : Int) : ℚ)) ^ 2 +
        ((z : ℚ) - ((B : Int) : ℚ) / ((k : Int) : ℚ)) ^ 2 =
        ((((k * x - A : Int) : ℚ)) ^ 2 + (((k * z - B : Int) : ℚ)) ^ 2) /
          ((k : Int) : ℚ) ^ 2 := by
      field_simp
      push_cast
      ring
    rw [hsq, div_le_iff (by positivity)] at h
    have hq : (((k * x - A) ^ 2 + (k * z - B) ^ 2 : Int) : ℚ) ≤
        ((rsq * k ^ 2 : Int) : ℚ) := by
      push_cast
      push_cast at h
      linarith
    exact_mod_cast hq

/-- C3: every emitted group satisfies the centroid containment predicate:
its members all lie within squared distance `r²` of the arithmetic-mean
centroid (the `double` computation of `is_valid_group`, transcribed with
exact arithmetic as licensed by §4.6). -/
theorem emitted_satisfies_centroid (pts : List Pt) (r : Int)
    (mult buf_size max_bits : ℕ) (g : List ℕ)
    (hg : g ∈ run_groups pts r mult buf_size max_bits) :
    is_valid_group pts (r * r) g = true ∧ is_valid_groupQ pts (r * r) g := by
  obtain ⟨c, hc, hmem⟩ := mem_all_groups_iff.mp hg
  obtain ⟨-, ci, hci, hmem⟩ := mem_find_groups_in_cell_iff.mp hmem
  obtain ⟨-, h4 | h3⟩ := mem_base_groups_iff.mp hmem
  · obtain ⟨i, j, k, -, -, -, -, -, -, hval, rfl⟩ := mem_groups4_iff.mp h4
    exact ⟨hval, (is_valid_group_iff_Q _ _ _ (by simp)).mp hval⟩
  · obtain ⟨i, j, -, -, -, hval, rfl⟩ := mem_groups3_iff.mp h3
    exact ⟨hval, (is_valid_group_iff_Q _ _ _ (by simp)).mp hval⟩

/-- Witness for C3 on the triangle-fit scenario. -/
theorem emitted_satisfies_centroid_witness :
    [0, 1, 2] ∈ run_groups [⟨0, 0⟩, ⟨1, 1⟩, ⟨2, 0⟩] 2 1 262144 27 ∧
    is_valid_group [⟨0, 0⟩, ⟨1, 1⟩, ⟨2, 0⟩] (2 * 2) [0, 1, 2] = true := by
  refine ⟨by decide, ?_⟩
  exact (emitted_satisfies_centroid [⟨0, 0⟩, ⟨1, 1⟩, ⟨2, 0⟩] 2 1 262144 27
    [0, 1, 2] (by decide)).1

/-! ## Structural form of the subset loops (for uniqueness, C1/C2) -/

/-- The position triples `i < j < k` visited by the 4-subset loops. -/
def triples (n : ℕ) : List (ℕ × ℕ × ℕ) :=
  (List.range (n - 2)).flatMap fun i =>
    (List.range' (i + 1) (n - 1 - (i + 1))).flatMap fun j =>
      (List.range' (j + 1) (n - (j + 1))).map fun k => (i, j, k)

/-- The position pairs `i < j` visited by the 3-subset loops. -/
def pairs (n : ℕ) : List (ℕ × ℕ) :=
  (List.range (n - 1)).flatMap fun i =>
    (List.range' (i + 1) (n - (i + 1))).map fun j => (i, j)

def g4cond (pts : List Pt) (rsq : Int) (b : ℕ) (cand : List ℕ)
    (t : ℕ × ℕ × ℕ) : Bool :=
  decide (dist_sq_idx pts (cand.getD t.1 0) (cand.getD t.2.1 0) ≤ 4 * rsq) &&
  decide (dist_sq_idx pts (cand.getD t.1 0) (cand.getD t.2.2 0) ≤ 4 * rsq) &&
  decide (dist_sq_idx pts (cand.getD t.2.1 0) (cand.getD t.2.2 0) ≤ 4 * rsq) &&
  is_valid_group pts rsq [b, cand.getD t.1 0, cand.getD t.2.1 0, cand.getD t.2.2 0]

def build4 (b : ℕ) (cand : List ℕ) (t : ℕ × ℕ × ℕ) : List ℕ :=
  [b, cand.getD t.1 0, cand.getD t.2.1 0, cand.getD t.2.2 0]

def g3cond (pts : List Pt) (rsq : Int) (b : ℕ) (cand : List ℕ)
    (t : ℕ × ℕ) : Bool :=
  decide (dist_sq_idx pts (cand.getD t.1 0) (cand.getD t.2 0) ≤ 4 * rsq) &&
  is_valid_group pts rsq [b, cand.getD t.1 0, cand.getD t.2 0]

def build3 (b : ℕ) (cand : List ℕ) (t : ℕ × ℕ) : List ℕ :=
  [b, cand.getD t.1 0, cand.getD t.2 0]

theorem flatMap_singleton_if {α β : Type} (l : List α) (p : α → Bool) (g : α → β) :
    (l.flatMap fun a => if p a then [g a] else []) = (l.filter p).map g := by
  induction l with
  | nil => rfl
  | cons a l ih =>
    rw [List.flatMap_cons, List.filter_cons]
    cases hp : p a <;> simp [hp, ih]

theorem groups4_eq_filter_map (pts : List Pt) (rsq : Int) (b : ℕ) (cand : List ℕ) :
    groups4 pts rsq b cand =
      if 3 ≤ cand.length then
        ((triples cand.length).filter (g4cond pts rsq b cand)).map (build4 b cand)
      else [] := by
  by_cases h3 : 3 ≤ cand.length
  · rw [groups4, if_pos h3, if_pos h3, triples, List.filter_flatMap, List.map_flatMap]
    apply List.flatMap_congr
    intro i hi
    rw [List.filter_flatMap, List.map_flatMap]
    apply List.flatMap_congr
    intro j hj
    rw [List.filter_map, List.map_map]
    by_cases hij : 4 * rsq < dist_sq_idx pts (cand.getD i 0) (cand.getD j 0)
    · rw [if_pos hij]
      rw [show (List.range' (j + 1) (cand.length - (j + 1))).filter
          ((g4cond pts rsq b cand) ∘ (fun k => (i, j, k))) = [] from ?_]
      · rfl
      · rw [List.filter_eq_nil_iff]
        intro k hk
        simp only [Function.comp_apply, g4cond, Bool.and_eq_true, decide_eq_true_eq,
          not_and]
        intro h1
        omega
    · rw [if_neg hij]
      have hstep : ∀ k ∈ List.range' (j + 1) (cand.length - (j + 1)),
          (if 4 * rsq < dist_sq_idx pts (cand.getD i 0) (cand.getD k 0) then []
           else if 4 * rsq < dist_sq_idx pts (cand.getD j 0) (cand.getD k 0) then []
           else if is_valid_group pts rsq
               [b, cand.getD i 0, cand.getD j 0, cand.getD k 0] = true then
             [[b, cand.getD i 0, cand.getD j 0, cand.getD k 0]]
           else []) =
          (if (g4cond pts rsq b cand ∘ fun k => (i, j, k)) k then
            [(build4 b cand ∘ fun k => (i, j, k)) k] else []) := by
        intro k hk
        simp only [Function.comp_apply, g4cond, build4, Bool.and_eq_true,
          decide_eq_true_eq]
        by_cases hik : 4 * rsq < dist_sq_idx pts (cand.getD i 0) (cand.getD k 0)
        · rw [if_pos hik, if_neg (fun hcon => absurd hcon.1.1.2 (not_le.mpr hik))]
        · rw [if_neg hik]
          by_cases hjk : 4 * rsq < dist_sq_idx pts (cand.getD j 0) (cand.getD k 0)
          · rw [if_pos hjk, if_neg (fun hcon => absurd hcon.1.2 (not_le.mpr hjk))]
          · rw [if_neg hjk]
            by_cases hval : is_valid_group pts rsq
                [b, cand.getD i 0, cand.getD j 0, cand.getD k 0] = true
            · rw [if_pos hval, if_pos ⟨⟨⟨by omega, by omega⟩, by omega⟩, hval⟩]
            · rw [if_neg hval, if_neg (fun hcon => absurd hcon.2 hval)]
      rw [List.flatMap_congr hstep, flatMap_singleton_if]
  · rw [groups4, if_neg h3, if_neg h3]

theorem groups3_eq_filter_map (pts : List Pt) (rsq : Int) (b : ℕ) (cand : List ℕ) :
    groups3 pts rsq b cand =
      ((pairs cand.length).filter (g3cond pts rsq b cand)).map (build3 b cand) := by
  rw [groups3, pairs, List.filter_flatMap, List.map_flatMap]
  apply List.flatMap_congr
  intro i hi
  rw [List.filter_map, List.map_map]
  have hstep : ∀ j ∈ List.range' (i + 1) (cand.length - (i + 1)),
      (if 4 * rsq < dist_sq_idx pts (cand.getD i 0) (cand.getD j 0) then []
       else if is_valid_group pts rsq [b, cand.getD i 0, cand.getD j 0] = true then
         [[b, cand.getD i 0, cand.getD j 0]]
       else []) =
      (if (g3cond pts rsq b cand ∘ fun j => (i, j)) j then
        [(build3 b cand ∘ fun j => (i, j)) j] else []) := by
    intro j hj
    simp only [Function.comp_apply, g3cond, build3, Bool.and_eq_true,
      decide_eq_true_eq]
    by_cases hij : 4 * rsq < dist_sq_idx pts (cand.getD i 0) (cand.getD j 0)
    · rw [if_pos hij, if_neg (fun hcon => absurd hcon.1 (not_le.mpr hij))]
    · rw [if_neg hij]
      by_cases hval : is_valid_group pts rsq [b, cand.getD i 0, cand.getD j 0] = true
      · rw [if_pos hval, if_pos ⟨by omega, hval⟩]
      · rw [if_neg hval, if_neg (fun hcon => absurd hcon.2 hval)]
  rw [List.flatMap_congr hstep, flatMap_singleton_if]

theorem mem_triples {n i j k : ℕ} : (i, j, k) ∈ triples n ↔ i < j ∧ j < k ∧ k < n := by
  rw [triples]
  constructor
  · intro h
    obtain ⟨i', hi', h⟩ := List.mem_flatMap.mp h
    obtain ⟨j', hj', h⟩ := List.mem_flatMap.mp h
    obtain ⟨k', hk', heq⟩ := List.mem_map.mp h
    obtain ⟨rfl, rfl, rfl⟩ : i' = i ∧ j' = j ∧ k' = k := by
      simpa [Prod.ext_iff] using heq
    rw [List.mem_range] at hi'
    rw [List.mem_range'_1] at hj' hk'
    omega
  · rintro ⟨hij, hjk, hk⟩
    refine List.mem_flatMap.mpr ⟨i, List.mem_range.mpr (by omega), ?_⟩
    refine List.mem_flatMap.mpr ⟨j, List.mem_range'_1.mpr ⟨by omega, by omega⟩, ?_⟩
    exact List.mem_map.mpr ⟨k, List.mem_range'_1.mpr ⟨by omega, by omega⟩, rfl⟩

theorem mem_pairs {n i j : ℕ} : (i, j) ∈ pairs n ↔ i < j ∧ j < n := by
  rw [pairs]
  constructor
  · intro h
    obtain ⟨i', hi', h⟩ := List.mem_flatMap.mp h
    obtain ⟨j', hj', heq⟩ := List.mem_map.mp h
    obtain ⟨rfl, rfl⟩ : i' = i ∧ j' = j := by simpa [Prod.ext_iff] using heq
    rw [List.mem_range] at hi'
    rw [List.mem_range'_1] at hj'
    omega
  · rintro ⟨hij, hj⟩
    refine List.mem_flatMap.mpr ⟨i, List.mem_range.mpr (by omega), ?_⟩
    exact List.mem_map.mpr ⟨j, List.mem_range'_1.mpr ⟨by omega, by omega⟩, rfl⟩

theorem triples_nodup (n : ℕ) : (triples n).Nodup := by
  rw [triples, List.nodup_flatMap]
  constructor
  · intro i hi
    rw [List.nodup_flatMap]
    constructor
    · intro j hj
      refine List.Nodup.map ?_ (List.nodup_range' ..)
      intro a b hab
      simpa [Prod.ext_iff] using hab
    · rw [List.pairwise_iff_getElem]
      intro a b ha hb hab
      intro t ht1 ht2
      obtain ⟨k1, -, heq1⟩ := List.mem_map.mp ht1
      obtain ⟨k2, -, heq2⟩ := List.mem_map.mp ht2
      have hj1 : t.1 = i ∧ t.2.1 = (List.range' (i + 1) (n - 1 - (i + 1)))[a] := by
        rw [← heq1]; exact ⟨rfl, rfl⟩
      have hj2 : t.2.1 = (List.range' (i + 1) (n - 1 - (i + 1)))[b] := by
        rw [← heq2]
      have := (List.nodup_range' ..).getElem_inj_iff.mp (hj1.2.symm.trans hj2)
      omega
  · rw [List.pairwise_iff_getElem]
    intro a b ha hb hab
    intro t ht1 ht2
    simp only [List.mem_flatMap, List.mem_map] at ht1 ht2
    obtain ⟨j1, -, k1, -, heq1⟩ := ht1
    obtain ⟨j2, -, k2, -, heq2⟩ := ht2
    have h1 : t.1 = (List.range (n - 2))[a] := by rw [← heq1]
    have h2 : t.1 = (List.range (n - 2))[b] := by rw [← heq2]
    have := (List.nodup_range _).getElem_inj_iff.mp (h1.symm.trans h2)
    omega

theorem pairs_nodup (n : ℕ) : (pairs n).Nodup := by
  rw [pairs, List.nodup_flatMap]
  constructor
  · intro i hi
    refine List.Nodup.map ?_ (List.nodup_range' ..)
    intro a b hab
    simpa [Prod.ext_iff] using hab
  · rw [List.pairwise_iff_getElem]
    intro a b ha hb hab
    intro t ht1 ht2
    obtain ⟨j1, -, heq1⟩ := List.mem_map.mp ht1
    obtain ⟨j2, -, heq2⟩ := List.mem_map.mp ht2
    have h1 : t.1 = (List.range (n - 1))[a] := by rw [← heq1]
    have h2 : t.1 = (List.range (n - 1))[b] := by rw [← heq2]
    have := (List.nodup_range _).getElem_inj_iff.mp (h1.symm.trans h2)
    omega

theorem nodup_getD_inj {l : List ℕ} (h : l.Nodup) {a a' : ℕ}
    (ha : a < l.length) (ha' : a' < l.length)
    (he : l.getD a 0 = l.getD a' 0) : a = a' := by
  rw [List.getD_eq_getElem?_getD, List.getElem?_eq_getElem ha,
    List.getD_eq_getElem?_getD, List.getElem?_eq_getElem ha'] at he
  simp only [Option.getD_some] at he
  exact h.getElem_inj_iff.mp he

theorem getD_mem {l : List ℕ} {a : ℕ} (ha : a < l.length) : l.getD a 0 ∈ l := by
  rw [List.getD_eq_getElem?_getD, List.getElem?_eq_getElem ha]
  exact List.getElem_mem ha

/-- Two position triples producing the same index set are equal. -/
theorem quad_pos_of_finset_eq {cand : List ℕ} (hnd : cand.Nodup) {b : ℕ}
    (hgt : ∀ n ∈ cand, b < n) {i j k i' j' k' : ℕ}
    (hij : i < j) (hjk : j < k) (hk : k < cand.length)
    (hij' : i' < j') (hjk' : j' < k') (hk' : k' < cand.length)
    (heq : ([b, cand.getD i 0, cand.getD j 0, cand.getD k 0] : List ℕ).toFinset =
      ([b, cand.getD i' 0, cand.getD j' 0, cand.getD k' 0] : List ℕ).toFinset) :
    i = i' ∧ j = j' ∧ k = k' := by
  have hvm : ∀ a : ℕ, a < cand.length → b < cand.getD a 0 :=
    fun a ha => hgt _ (getD_mem ha)
  have step : ∀ a, a < cand.length →
      cand.getD a 0 ∈ ([b, cand.getD i' 0, cand.getD j' 0, cand.getD k' 0] :
        List ℕ).toFinset → a = i' ∨ a = j' ∨ a = k' := by
    intro a ha hmem
    simp only [List.toFinset_cons, List.toFinset_nil, Finset.mem_insert,
      Finset.not_mem_empty, or_false] at hmem
    rcases hmem with h | h | h | h
    · exact absurd h (by have := hvm a ha; omega)
    · exact Or.inl (nodup_getD_inj hnd ha (by omega) h)
    · exact Or.inr (Or.inl (nodup_getD_inj hnd ha (by omega) h))
    · exact Or.inr (Or.inr (nodup_getD_inj hnd ha hk' h))
  have hmemi : cand.getD i 0 ∈ ([b, cand.getD i' 0, cand.getD j' 0, cand.getD k' 0] :
      List ℕ).toFinset := by rw [← heq]; simp
  have hmemj : cand.getD j 0 ∈ ([b, cand.getD i' 0, cand.getD j' 0, cand.getD k' 0] :
      List ℕ).toFinset := by rw [← heq]; simp
  have hmemk : cand.getD k 0 ∈ ([b, cand.getD i' 0, cand.getD j' 0, cand.getD k' 0] :
      List ℕ).toFinset := by rw [← heq]; simp
  have h1 := step i (by omega) hmemi
  have h2 := step j (by omega) hmemj
  have h3 := step k (by omega) hmemk
  rcases h1 with rfl | rfl | rfl <;> rcases h2 with rfl | rfl | rfl <;>
    rcases h3 with rfl | rfl | rfl <;> omega

/-- Two position pairs producing the same index set are equal. -/
theorem pair_pos_of_finset_eq {cand : List ℕ} (hnd : cand.Nodup) {b : ℕ}
    (hgt : ∀ n ∈ cand, b < n) {i j i' j' : ℕ}
    (hij : i < j) (hj : j < cand.length)
    (hij' : i' < j') (hj' : j' < cand.length)
    (heq : ([b, cand.getD i 0, cand.getD j 0] : List ℕ).toFinset =
      ([b, cand.getD i' 0, cand.getD j' 0] : List ℕ).toFinset) :
    i = i' ∧ j = j' := by
  have hvm : ∀ a : ℕ, a < cand.length → b < cand.getD a 0 :=
    fun a ha => hgt _ (getD_mem ha)
  have step : ∀ a, a < cand.length →
      cand.getD a 0 ∈ ([b, cand.getD i' 0, cand.getD j' 0] : List ℕ).toFinset →
      a = i' ∨ a = j' := by
    intro a ha hmem
    simp only [List.toFinset_cons, List.toFinset_nil, Finset.mem_insert,
      Finset.not_mem_empty, or_false] at hmem
    rcases hmem with h | h | h
    · exact absurd h (by have := hvm a ha; omega)
    · exact Or.inl (nodup_getD_inj hnd ha (by omega) h)
    · exact Or.inr (nodup_getD_inj hnd ha hj' h)
  have hmemi : cand.getD i 0 ∈ ([b, cand.getD i' 0, cand.getD j' 0] :
      List ℕ).toFinset := by rw [← heq]; simp
  have hmemj : cand.getD j 0 ∈ ([b, cand.getD i' 0, cand.getD j' 0] :
      List ℕ).toFinset := by rw [← heq]; simp
  have h1 := step i (by omega) hmemi
  have h2 := step j (by omega) hmemj
  rcases h1 with rfl | rfl <;> rcases h2 with rfl | rfl <;> omega

/-- Every group of the 4-subset loops is `base :: three distinct candidates`,
with the base strictly smallest. -/
theorem groups4_shape {pts : List Pt} {rsq : Int} {b : ℕ} {cand : List ℕ}
    (hnd : cand.Nodup) (hgt : ∀ n ∈ cand, b < n) {g : List ℕ}
    (hg : g ∈ groups4 pts rsq b cand) :
    g.length = 4 ∧ g.Nodup ∧ ∃ rest, g = b :: rest ∧
      ∀ x ∈ rest, x ∈ cand ∧ b < x := by
  obtain ⟨i, j, k, hij, hjk, hk, -, -, -, -, rfl⟩ := mem_groups4_iff.mp hg
  have hvi := getD_mem (show i < cand.length by omega)
  have hvj := getD_mem (show j < cand.length by omega)
  have hvk := getD_mem hk
  have hne1 : cand.getD i 0 ≠ cand.getD j 0 := fun h =>
    absurd (nodup_getD_inj hnd (by omega) (by omega) h) (by omega)
  have hne2 : cand.getD i 0 ≠ cand.getD k 0 := fun h =>
    absurd (nodup_getD_inj hnd (by omega) hk h) (by omega)
  have hne3 : cand.getD j 0 ≠ cand.getD k 0 := fun h =>
    absurd (nodup_getD_inj hnd (by omega) hk h) (by omega)
  refine ⟨rfl, ?_, [cand.getD i 0, cand.getD j 0, cand.getD k 0], rfl, ?_⟩
  · have hb1 := hgt _ hvi
    have hb2 := hgt _ hvj
    have hb3 := hgt _ hvk
    refine List.nodup_cons.mpr ⟨?_, List.nodup_cons.mpr ⟨?_,
      List.nodup_cons.mpr ⟨?_, List.nodup_singleton _⟩⟩⟩
    · intro hmem
      rcases List.mem_cons.mp hmem with h | hmem
      · omega
      rcases List.mem_cons.mp hmem with h | hmem
      · omega
      rcases List.mem_cons.mp hmem with h | hmem
      · omega
      · cases hmem
    · intro hmem
      rcases List.mem_cons.mp hmem with h | hmem
      · exact hne1 h
      rcases List.mem_cons.mp hmem with h | hmem
      · exact hne2 h
      · cases hmem
    · intro hmem
      rcases List.mem_cons.mp hmem with h | hmem
      · exact hne3 h
      · cases hmem
  · intro x hx
    rcases List.mem_cons.mp hx with rfl | hx
    · exact ⟨hvi, hgt _ hvi⟩
    rcases List.mem_cons.mp hx with rfl | hx
    · exact ⟨hvj, hgt _ hvj⟩
    rcases List.mem_cons.mp hx with rfl | hx
    · exact ⟨hvk, hgt _ hvk⟩
    · cases hx

/-- Every group of the 3-subset loops is `base :: two distinct candidates`,
with the base strictly smallest. -/
theorem groups3_shape {pts : List Pt} {rsq : Int} {b : ℕ} {cand : List ℕ}
    (hnd : cand.Nodup) (hgt : ∀ n ∈ cand, b < n) {g : List ℕ}
    (hg : g ∈ groups3 pts rsq b cand) :
    g.length = 3 ∧ g.Nodup ∧ ∃ rest, g = b :: rest ∧
      ∀ x ∈ rest, x ∈ cand ∧ b < x := by
  obtain ⟨i, j, hij, hj, -, -, rfl⟩ := mem_groups3_iff.mp hg
  have hvi := getD_mem (show i < cand.length by omega)
  have hvj := getD_mem hj
  have hne1 : cand.getD i 0 ≠ cand.getD j 0 := fun h =>
    absurd (nodup_getD_inj hnd (by omega) hj h) (by omega)
  refine ⟨rfl, ?_, [cand.getD i 0, cand.getD j 0], rfl, ?_⟩
  · have hb1 := hgt _ hvi
    have hb2 := hgt _ hvj
    refine List.nodup_cons.mpr ⟨?_, List.nodup_cons.mpr ⟨?_, List.nodup_singleton _⟩⟩
    · intro hmem
      rcases List.mem_cons.mp hmem with h | hmem
      · omega
      rcases List.mem_cons.mp hmem with h | hmem
      · omega
      · cases hmem
    · intro hmem
      rcases List.mem_cons.mp hmem with h | hmem
      · exact hne1 h
      · cases hmem
  · intro x hx
    rcases List.mem_cons.mp hx with rfl | hx
    · exact ⟨hvi, hgt _ hvi⟩
    rcases List.mem_cons.mp hx with rfl | hx
    · exact ⟨hvj, hgt _ hvj⟩
    · cases hx

theorem groups4_sets_nodup (pts : List Pt) (rsq : Int) (b : ℕ) (cand : List ℕ)
    (hnd : cand.Nodup) (hgt : ∀ n ∈ cand, b < n) :
    ((groups4 pts rsq b cand).map List.toFinset).Nodup := by
  rw [groups4_eq_filter_map]
  by_cases h3 : 3 ≤ cand.length
  · rw [if_pos h3, List.map_map]
    refine List.Nodup.map_on ?_ ((triples_nodup cand.length).filter _)
    rintro ⟨i, j, k⟩ ht ⟨i', j', k'⟩ ht' heq
    have hm := mem_triples.mp (List.mem_of_mem_filter ht)
    have hm' := mem_triples.mp (List.mem_of_mem_filter ht')
    simp only [Function.comp_apply, build4] at heq
    obtain ⟨rfl, rfl, rfl⟩ := quad_pos_of_finset_eq hnd hgt hm.1 hm.2.1 hm.2.2
      hm'.1 hm'.2.1 hm'.2.2 heq
    rfl
  · rw [if_neg h3]
    exact List.Pairwise.nil

theorem groups3_sets_nodup (pts : List Pt) (rsq : Int) (b : ℕ) (cand : List ℕ)
    (hnd : cand.Nodup) (hgt : ∀ n ∈ cand, b < n) :
    ((groups3 pts rsq b cand).map List.toFinset).Nodup := by
  rw [groups3_eq_filter_map, List.map_map]
  refine List.Nodup.map_on ?_ ((pairs_nodup cand.length).filter _)
  rintro ⟨i, j⟩ ht ⟨i', j'⟩ ht' heq
  have hm := mem_pairs.mp (List.mem_of_mem_filter ht)
  have hm' := mem_pairs.mp (List.mem_of_mem_filter ht')
  simp only [Function.comp_apply, build3] at heq
  obtain ⟨rfl, rfl⟩ := pair_pos_of_finset_eq hnd hgt hm.1 hm.2 hm'.1 hm'.2 heq
  rfl

theorem base_groups_shape {pts : List Pt} {rsq : Int} {b : ℕ} {cand : List ℕ}
    (hnd : cand.Nodup) (hgt : ∀ n ∈ cand, b < n) {g : List ℕ}
    (hg : g ∈ base_groups pts rsq b cand) :
    (g.length = 3 ∨ g.length = 4) ∧ g.Nodup ∧ ∃ rest, g = b :: rest ∧
      ∀ x ∈ rest, x ∈ cand ∧ b < x := by
  obtain ⟨-, h4 | h3⟩ := mem_base_groups_iff.mp hg
  · obtain ⟨hl, hnd', rest, rfl, hrest⟩ := groups4_shape hnd hgt h4
    exact ⟨Or.inr hl, hnd', rest, rfl, hrest⟩
  · obtain ⟨hl, hnd', rest, rfl, hrest⟩ := groups3_shape hnd hgt h3
    exact ⟨Or.inl hl, hnd', rest, rfl, hrest⟩

theorem base_groups_sets_nodup (pts : List Pt) (rsq : Int) (b : ℕ) (cand : List ℕ)
    (hnd : cand.Nodup) (hgt : ∀ n ∈ cand, b < n) :
    ((base_groups pts rsq b cand).map List.toFinset).Nodup := by
  rw [base_groups]
  by_cases h2 : cand.length < 2
  · rw [if_pos h2]; exact List.Pairwise.nil
  · rw [if_neg h2, List.map_append, List.nodup_append]
    refine ⟨groups4_sets_nodup pts rsq b cand hnd hgt,
      groups3_sets_nodup pts rsq b cand hnd hgt, ?_⟩
    intro X hX4 hX3
    obtain ⟨g4, hg4, rfl⟩ := List.mem_map.mp hX4
    obtain ⟨g3, hg3, hEq⟩ := List.mem_map.mp hX3
    have s4 := groups4_shape hnd hgt hg4
    have s3 := groups3_shape hnd hgt hg3
    have c4 : g4.toFinset.card = 4 := by rw [List.toFinset_card_of_nodup s4.2.1, s4.1]
    have c3 : g3.toFinset.card = 3 := by rw [List.toFinset_card_of_nodup s3.2.1, s3.1]
    rw [hEq] at c3
    omega

/-- The base is the least element of every set a base emits. -/
theorem base_groups_min {pts : List Pt} {rsq : Int} {b : ℕ} {cand : List ℕ}
    (hnd : cand.Nodup) (hgt : ∀ n ∈ cand, b < n) {X : Finset ℕ}
    (hX : X ∈ (base_groups pts rsq b cand).map List.toFinset) :
    b ∈ X ∧ ∀ x ∈ X, b ≤ x := by
  obtain ⟨g, hg, rfl⟩ := List.mem_map.mp hX
  obtain ⟨-, -, rest, rfl, hrest⟩ := base_groups_shape hnd hgt hg
  constructor
  · simp
  · intro x hx
    rw [List.mem_toFinset, List.mem_cons] at hx
    rcases hx with rfl | hx
    · exact le_refl x
    · exact (hrest x hx).2.le

theorem candidates_nodup {pts : List Pt} {rsq : Int} {base : ℕ} {nb : List ℕ}
    (hnb : nb.Nodup) : (candidates pts rsq base nb).Nodup :=
  List.Nodup.sublist (List.take_sublist _ _) (hnb.filter _)

theorem candidates_gt {pts : List Pt} {rsq : Int} {base : ℕ} {nb : List ℕ} :
    ∀ n ∈ candidates pts rsq base nb, base < n :=
  fun n hn => (mem_candidates hn).2.1

/-- Per-cell uniqueness: distinct bases emit sets with distinct least
elements. -/
theorem cell_sets_nodup (idx : SIndex) (rsq : Int) (w buf_size : ℕ) (c : CellEntry)
    (hgnd : (gather idx w buf_size c).Nodup) :
    ((find_groups_in_cell idx rsq w buf_size c).map List.toFinset).Nodup := by
  rw [find_groups_in_cell]
  by_cases h3 : (gather idx w buf_size c).length < 3
  · rw [if_pos h3]; exact List.Pairwise.nil
  · rw [if_neg h3, List.map_flatMap, List.nodup_flatMap]
    constructor
    · intro ci hci
      exact base_groups_sets_nodup idx.pts rsq (c.start + ci) _
        (candidates_nodup hgnd) candidates_gt
    · refine (List.pairwise_lt_range _).imp ?_
      intro ci₁ ci₂ hlt X hX₁ hX₂
      have h₁ := base_groups_min (candidates_nodup hgnd) candidates_gt hX₁
      have h₂ := base_groups_min (candidates_nodup hgnd) candidates_gt hX₂
      have hle₁ := h₁.2 _ h₂.1
      have hle₂ := h₂.2 _ h₁.1
      omega

/-- The least element of every set a cell emits lies in the cell's range. -/
theorem cell_sets_min (idx : SIndex) (rsq : Int) (w buf_size : ℕ) (c : CellEntry)
    (hgnd : (gather idx w buf_size c).Nodup) {X : Finset ℕ}
    (hX : X ∈ (find_groups_in_cell idx rsq w buf_size c).map List.toFinset) :
    ∃ b, b ∈ cellIndices c ∧ b ∈ X ∧ ∀ x ∈ X, b ≤ x := by
  obtain ⟨g, hg, rfl⟩ := List.mem_map.mp hX
  obtain ⟨-, ci, hci, hmem⟩ := mem_find_groups_in_cell_iff.mp hg
  have hmin := base_groups_min (candidates_nodup hgnd) candidates_gt
    (List.mem_map.mpr ⟨g, hmem, rfl⟩)
  exact ⟨c.start + ci, mem_cellIndices.mpr ⟨by omega, by omega⟩, hmin⟩

/-- Cell ranges of the built index are pairwise disjoint in list order. -/
theorem index_pairwise_ranges (s : Int) (mb : ℕ) (pts : List Pt) :
    (build_index s mb pts).cells.Pairwise (fun c d => c.start + c.count ≤ d.start) := by
  have hp := ConsecFrom.pairwise_ranges (buildCellsFrom_consec s pts 0)
  rw [List.pairwise_iff_getElem] at hp ⊢
  intro i j hi hj hlt
  have hi0 : i < (buildCellsFrom s pts 0).length := by
    rw [← index_length s mb pts]; exact hi
  have hj0 : j < (buildCellsFrom s pts 0).length := by
    rw [← index_length s mb pts]; exact hj
  have hsi := index_strip s mb pts i
  have hsj := index_strip s mb pts j
  rw [List.getElem?_eq_getElem hi, List.getElem?_eq_getElem hi0] at hsi
  rw [List.getElem?_eq_getElem hj, List.getElem?_eq_getElem hj0] at hsj
  obtain ⟨-, -, hst1, hct1⟩ := strip_eq_keys (show strip (build_index s mb pts).cells[i] =
    strip (buildCellsFrom s pts 0)[i] by simpa using hsi)
  obtain ⟨-, -, hst2, -⟩ := strip_eq_keys (show strip (build_index s mb pts).cells[j] =
    strip (buildCellsFrom s pts 0)[j] by simpa using hsj)
  have := hp i j hi0 hj0 hlt
  omega

/-- Two cells of the built index with different keys have disjoint index
ranges. -/
theorem index_cells_disjoint (s : Int) (mb : ℕ) (pts : List Pt)
    {c₁ c₂ : CellEntry} (h₁ : c₁ ∈ (build_index s mb pts).cells)
    (h₂ : c₂ ∈ (build_index s mb pts).cells)
    (hkey : ¬(c₁.cellX = c₂.cellX ∧ c₁.cellZ = c₂.cellZ))
    {n : ℕ} (hn₁ : n ∈ cellIndices c₁) (hn₂ : n ∈ cellIndices c₂) : False := by
  obtain ⟨j₁, hj₁⟩ := List.mem_iff_getElem?.mp h₁
  obtain ⟨j₂, hj₂⟩ := List.mem_iff_getElem?.mp h₂
  have hb₁ := (List.getElem?_eq_some_iff.mp hj₁).1
  have hb₂ := (List.getElem?_eq_some_iff.mp hj₂).1
  have hg₁ := (List.getElem?_eq_some_iff.mp hj₁).2
  have hg₂ := (List.getElem?_eq_some_iff.mp hj₂).2
  rcases Nat.lt_trichotomy j₁ j₂ with hlt | heq | hgt
  · have hsep := (List.pairwise_iff_getElem.mp (index_pairwise_ranges s mb pts))
      j₁ j₂ hb₁ hb₂ hlt
    rw [hg₁, hg₂] at hsep
    rw [mem_cellIndices] at hn₁ hn₂
    omega
  · subst heq
    rw [hj₁] at hj₂
    obtain rfl := Option.some_inj.mp hj₂
    exact hkey ⟨rfl, rfl⟩
  · have hsep := (List.pairwise_iff_getElem.mp (index_pairwise_ranges s mb pts))
      j₂ j₁ hb₂ hb₁ hgt
    rw [hg₁, hg₂] at hsep
    rw [mem_cellIndices] at hn₁ hn₂
    omega

theorem offsets_nodup (w : ℕ) : (offsets w).Nodup := by
  rw [offsets]
  refine List.Nodup.map ?_ (List.nodup_range _)
  intro a b hab
  simp only at hab
  omega

theorem cellIndices_nodup (c : CellEntry) : (cellIndices c).Nodup := by
  rw [cellIndices]
  refine List.Nodup.map ?_ (List.nodup_range _)
  intro a b hab
  simp only at hab
  omega

/-- The full neighbor gather has no duplicate indices (distinct ring offsets
resolve to cells with distinct keys, whose ranges are disjoint). -/
theorem gather_full_nodup (s : Int) (mb : ℕ) (pts : List Pt) (w : ℕ)
    (c : CellEntry) : (gather_full (build_index s mb pts) w c).Nodup := by
  rw [gather_full, List.nodup_flatMap]
  constructor
  · intro dx hdx
    rw [List.nodup_flatMap]
    constructor
    · intro dz hdz
      cases hfc : find_cell (build_index s mb pts) (c.cellX + dx) (c.cellZ + dz) with
      | none => simp only [hfc, cellList]; exact List.Pairwise.nil
      | some nc => simp only [hfc, cellList]; exact cellIndices_nodup nc
    · refine (offsets_nodup w).imp ?_
      intro dz₁ dz₂ hne n hn₁ hn₂
      cases hf₁ : find_cell (build_index s mb pts) (c.cellX + dx) (c.cellZ + dz₁) with
      | none => simp [hf₁, cellList] at hn₁
      | some nc₁ =>
        simp only [hf₁, cellList] at hn₁
        cases hf₂ : find_cell (build_index s mb pts) (c.cellX + dx) (c.cellZ + dz₂) with
        | none => simp [hf₂, cellList] at hn₂
        | some nc₂ =>
          simp only [hf₂, cellList] at hn₂
          obtain ⟨hm₁, hx₁, hz₁⟩ := find_cell_sound _ _ _ _ hf₁
          obtain ⟨hm₂, hx₂, hz₂⟩ := find_cell_sound _ _ _ _ hf₂
          exact index_cells_disjoint s mb pts hm₁ hm₂
            (by rw [hx₁, hz₁, hx₂, hz₂]; intro hcon; exact hne (by omega)) hn₁ hn₂
  · refine (offsets_nodup w).imp ?_
    intro dx₁ dx₂ hne n hn₁ hn₂
    obtain ⟨dz₁, -, hn₁⟩ := List.mem_flatMap.mp hn₁
    obtain ⟨dz₂, -, hn₂⟩ := List.mem_flatMap.mp hn₂
    cases hf₁ : find_cell (build_index s mb pts) (c.cellX + dx₁) (c.cellZ + dz₁) with
    | none => simp [hf₁, cellList] at hn₁
    | some nc₁ =>
      simp only [hf₁, cellList] at hn₁
      cases hf₂ : find_cell (build_index s mb pts) (c.cellX + dx₂) (c.cellZ + dz₂) with
      | none => simp [hf₂, cellList] at hn₂
      | some nc₂ =>
        simp only [hf₂, cellList] at hn₂
        obtain ⟨hm₁, hx₁, hz₁⟩ := find_cell_sound _ _ _ _ hf₁
        obtain ⟨hm₂, hx₂, hz₂⟩ := find_cell_sound _ _ _ _ hf₂
        exact index_cells_disjoint s mb pts hm₁ hm₂
          (by rw [hx₁, hx₂]; intro hcon; exact hne (by omega)) hn₁ hn₂

theorem gather_nodup (s : Int) (mb : ℕ) (pts : List Pt) (w buf_size : ℕ)
    (c : CellEntry) : (gather (build_index s mb pts) w buf_size c).Nodup :=
  List.Nodup.sublist (List.take_sublist _ _) (gather_full_nodup s mb pts w c)

/-- Emitted sets across all cells are distinct: each set's least element
lies in its cell's index range, and the cells' ranges are pairwise
disjoint. -/
theorem all_sets_nodup (s : Int) (mb : ℕ) (pts : List Pt) (rsq : Int)
    (w buf_size : ℕ) :
    ((all_groups (build_index s mb pts) rsq w buf_size).map List.toFinset).Nodup := by
  rw [all_groups, List.map_flatMap, List.nodup_flatMap]
  constructor
  · intro c hc
    exact cell_sets_nodup _ rsq w buf_size c (gather_nodup s mb pts w buf_size c)
  · rw [List.pairwise_iff_getElem]
    intro i j hi hj hij X hXi hXj
    obtain ⟨b₁, hb₁, hin₁, hle₁⟩ := cell_sets_min _ rsq w buf_size _
      (gather_nodup s mb pts w buf_size _) hXi
    obtain ⟨b₂, hb₂, hin₂, hle₂⟩ := cell_sets_min _ rsq w buf_size _
      (gather_nodup s mb pts w buf_size _) hXj
    have heq : b₁ = b₂ := le_antisymm (hle₁ _ hin₂) (hle₂ _ hin₁)
    have hsep := (List.pairwise_iff_getElem.mp (index_pairwise_ranges s mb pts))
      i j hi hj hij
    rw [mem_cellIndices] at hb₁ hb₂
    omega

/-- **Claim C2.** Uniqueness and well-formedness of emissions: every
emitted group consists of exactly 3 or 4 distinct point indices, no two
emitted groups are equal as sets of indices, and each group is considered
under exactly one base, namely its minimum index — every group is its base
followed by candidate indices strictly greater than the base. -/
theorem emitted_groups_unique (pts : List Pt) (r : Int)
    (mult buf_size max_bits : ℕ) :
    (∀ g ∈ run_groups pts r mult buf_size max_bits,
      (g.length = 3 ∨ g.length = 4) ∧ g.Nodup ∧
        ∃ b rest, g = b :: rest ∧ ∀ x ∈ rest, b < x) ∧
    (emitted_sets pts r mult buf_size max_bits).Nodup := by
  constructor
  · intro g hg
    rw [run_groups, mem_all_groups_iff] at hg
    obtain ⟨c, hc, hgc⟩ := hg
    obtain ⟨-, ci, hci, hmem⟩ := mem_find_groups_in_cell_iff.mp hgc
    obtain ⟨hl, hgnd, rest, hrw, hrest⟩ := base_groups_shape
      (candidates_nodup (gather_nodup (r * mult) max_bits pts ((mult + 1) / 2 + 1)
        buf_size c)) candidates_gt hmem
    exact ⟨hl, hgnd, c.start + ci, rest, hrw, fun x hx => (hrest x hx).2⟩
  · rw [emitted_sets, run_groups]
    exact all_sets_nodup (r * mult) max_bits pts (r * r) ((mult + 1) / 2 + 1) buf_size

/-! ## Completeness of the enumeration (C1) -/

theorem build_index_pts (s : Int) (mb : ℕ) (pts : List Pt) :
    (build_index s mb pts).pts = pts := rfl

theorem mem_offsets {w : ℕ} {d : Int} : d ∈ offsets w ↔ -(w : Int) ≤ d ∧ d ≤ w := by
  rw [offsets]
  constructor
  · intro h
    obtain ⟨i, hi, rfl⟩ := List.mem_map.mp h
    rw [List.mem_range] at hi
    omega
  · intro h
    exact List.mem_map.mpr ⟨(d + w).toNat, List.mem_range.mpr (by omega), by omega⟩

/-- Per-coordinate ring cover: coordinates within `2r` of each other map to
cells at most `(mult+1)/2 + 1` apart when `cell_size = r·mult`. -/
theorem coord_cell_near {r : Int} {mult : ℕ} (hr : 1 ≤ r) (hm : 1 ≤ mult)
    {a b : Int} (hab : (a - b) * (a - b) ≤ 4 * (r * r)) :
    coord_to_cell b (r * mult) - ((mult + 1) / 2 + 1 : ℕ) ≤ coord_to_cell a (r * mult) ∧
    coord_to_cell a (r * mult) ≤ coord_to_cell b (r * mult) + ((mult + 1) / 2 + 1 : ℕ) := by
  have hm' : (1 : Int) ≤ (mult : Int) := by exact_mod_cast hm
  have hs0 : 0 < r * (mult : Int) := by nlinarith
  have hw2 : 2 ≤ (mult + 1) / 2 + 1 := by omega
  have hw2' : (2 : Int) ≤ (((mult + 1) / 2 + 1 : ℕ) : Int) := by exact_mod_cast hw2
  have hub : a - b ≤ 2 * r := by nlinarith [hab, hr, mul_self_nonneg (a - b + 2 * r)]
  have hlb : -(2 * r) ≤ a - b := by nlinarith [hab, hr, mul_self_nonneg (a - b - 2 * r)]
  have hws : 2 * r ≤ (((mult + 1) / 2 + 1 : ℕ) : Int) * (r * mult) := by nlinarith
  rw [coord_to_cell_eq_fdiv a _ hs0, coord_to_cell_eq_fdiv b _ hs0,
    Int.fdiv_eq_ediv a hs0.le, Int.fdiv_eq_ediv b hs0.le]
  set w : Int := (((mult + 1) / 2 + 1 : ℕ) : Int) with hwdef
  set s : Int := r * (mult : Int) with hsdef
  constructor
  · have h1 : b - w * s ≤ a := by linarith
    have h2 : (b - w * s) / s = b / s - w := by
      rw [show b - w * s = b + -w * s from by ring,
        Int.add_mul_ediv_right _ _ hs0.ne.symm]
      ring
    calc b / s - w = (b - w * s) / s := h2.symm
      _ ≤ a / s := Int.ediv_le_ediv hs0 h1
  · have h1 : a ≤ b + w * s := by linarith
    calc a / s ≤ (b + w * s) / s := Int.ediv_le_ediv hs0 h1
      _ = b / s + w := Int.add_mul_ediv_right _ _ hs0.ne.symm

theorem all_perm {α : Type} {l l' : List α} (p : α → Bool) (hp : l.Perm l') :
    l.all p = l'.all p := by
  rw [Bool.eq_iff_iff, List.all_eq_true, List.all_eq_true]
  exact ⟨fun h i hi => h i (hp.symm.subset hi), fun h i hi => h i (hp.subset hi)⟩

/-- `is_valid_group` only depends on the multiset of member indices. -/
theorem is_valid_group_perm (pts : List Pt) (rsq : Int) {g g' : List ℕ}
    (hp : g.Perm g') : is_valid_group pts rsq g = is_valid_group pts rsq g' := by
  rw [is_valid_group, is_valid_group, hp.length_eq,
    (hp.map fun i => (get_coords pts i).x).sum_eq,
    (hp.map fun i => (get_coords pts i).z).sum_eq]
  exact all_perm _ hp

/-- `is_valid_group` only depends on the set of member indices, for
duplicate-free groups. -/
theorem is_valid_group_of_toFinset_eq (pts : List Pt) (rsq : Int)
    {g g' : List ℕ} (hnd : g.Nodup) (hnd' : g'.Nodup)
    (he : g.toFinset = g'.toFinset) :
    is_valid_group pts rsq g = is_valid_group pts rsq g' :=
  is_valid_group_perm pts rsq (List.perm_of_nodup_nodup_toFinset_eq hnd hnd' he)

theorem getD_at {cand : List ℕ} {i : ℕ} (hi : i < cand.length) :
    cand.getD i 0 = cand[i] := by
  rw [List.getD_eq_getElem?_getD, List.getElem?_eq_getElem hi]
  rfl

/-- Two distinct members of the candidate array occupy an increasing pair
of positions holding exactly them. -/
theorem exists_two_positions {cand : List ℕ} {a b : ℕ}
    (ha : a ∈ cand) (hb : b ∈ cand) (hab : a ≠ b) :
    ∃ i j, i < j ∧ j < cand.length ∧
      ({cand.getD i 0, cand.getD j 0} : Finset ℕ) = {a, b} ∧
      cand.getD i 0 ≠ cand.getD j 0 := by
  obtain ⟨i, hi, hia⟩ := List.mem_iff_getElem.mp ha
  obtain ⟨j, hj, hjb⟩ := List.mem_iff_getElem.mp hb
  have hga : cand.getD i 0 = a := by rw [getD_at hi]; exact hia
  have hgb : cand.getD j 0 = b := by rw [getD_at hj]; exact hjb
  rcases Nat.lt_trichotomy i j with hlt | heq | hgt
  · exact ⟨i, j, hlt, hj, by rw [hga, hgb], by rw [hga, hgb]; exact hab⟩
  · exact absurd (by rw [← hga, ← hgb, heq]) hab
  · refine ⟨j, i, hgt, hi, ?_, ?_⟩
    · rw [hga, hgb]
      ext y
      simp only [Finset.mem_insert, Finset.mem_singleton]
      tauto
    · rw [hga, hgb]
      exact fun h => hab h.symm

/-- Three distinct members of the candidate array occupy an increasing
triple of positions holding exactly them. -/
theorem exists_three_positions {cand : List ℕ} {a b c : ℕ}
    (ha : a ∈ cand) (hb : b ∈ cand) (hc : c ∈ cand)
    (hab : a ≠ b) (hac : a ≠ c) (hbc : b ≠ c) :
    ∃ i j k, i < j ∧ j < k ∧ k < cand.length ∧
      ({cand.getD i 0, cand.getD j 0, cand.getD k 0} : Finset ℕ) = {a, b, c} ∧
      cand.getD i 0 ≠ cand.getD j 0 ∧ cand.getD i 0 ≠ cand.getD k 0 ∧
      cand.getD j 0 ≠ cand.getD k 0 := by
  obtain ⟨i₁, h₁, hv₁⟩ := List.mem_iff_getElem.mp ha
  obtain ⟨i₂, h₂, hv₂⟩ := List.mem_iff_getElem.mp hb
  obtain ⟨i₃, h₃, hv₃⟩ := List.mem_iff_getElem.mp hc
  have g₁ : cand.getD i₁ 0 = a := by rw [getD_at h₁]; exact hv₁
  have g₂ : cand.getD i₂ 0 = b := by rw [getD_at h₂]; exact hv₂
  have g₃ : cand.getD i₃ 0 = c := by rw [getD_at h₃]; exact hv₃
  have e12 : i₁ ≠ i₂ := fun h => hab (by rw [← g₁, ← g₂, h])
  have e13 : i₁ ≠ i₃ := fun h => hac (by rw [← g₁, ← g₃, h])
  have e23 : i₂ ≠ i₃ := fun h => hbc (by rw [← g₂, ← g₃, h])
  rcases Nat.lt_trichotomy i₁ i₂ with h12 | h12 | h12
  · rcases Nat.lt_trichotomy i₂ i₃ with h23 | h23 | h23
    · exact ⟨i₁, i₂, i₃, h12, h23, h₃, by rw [g₁, g₂, g₃],
        by rw [g₁, g₂]; exact hab, by rw [g₁, g₃]; exact hac,
        by rw [g₂, g₃]; exact hbc⟩
    · exact (e23 h23).elim
    · rcases Nat.lt_trichotomy i₁ i₃ with h13 | h13 | h13
      · refine ⟨i₁, i₃, i₂, h13, h23, h₂, ?_, by rw [g₁, g₃]; exact hac,
          by rw [g₁, g₂]; exact hab, by rw [g₃, g₂]; exact fun h => hbc h.symm⟩
        rw [g₁, g₂, g₃]
        ext y
        simp only [Finset.mem_insert, Finset.mem_singleton]
        tauto
      · exact (e13 h13).elim
      · refine ⟨i₃, i₁, i₂, h13, h12, h₂, ?_, by rw [g₃, g₁]; exact fun h => hac h.symm,
          by rw [g₃, g₂]; exact fun h => hbc h.symm, by rw [g₁, g₂]; exact hab⟩
        rw [g₁, g₂, g₃]
        ext y
        simp only [Finset.mem_insert, Finset.mem_singleton]
        tauto
  · exact (e12 h12).elim
  · rcases Nat.lt_trichotomy i₁ i₃ with h13 | h13 | h13
    · refine ⟨i₂, i₁, i₃, h12, h13, h₃, ?_, by rw [g₂, g₁]; exact fun h => hab h.symm,
        by rw [g₂, g₃]; exact hbc, by rw [g₁, g₃]; exact hac⟩
      rw [g₁, g₂, g₃]
      ext y
      simp only [Finset.mem_insert, Finset.mem_singleton]
      tauto
    · exact (e13 h13).elim
    · rcases Nat.lt_trichotomy i₂ i₃ with h23 | h23 | h23
      · refine ⟨i₂, i₃, i₁, h23, h13, h₁, ?_, by rw [g₂, g₃]; exact hbc,
          by rw [g₂, g₁]; exact fun h => hab h.symm,
          by rw [g₃, g₁]; exact fun h => hac h.symm⟩
        rw [g₁, g₂, g₃]
        ext y
        simp only [Finset.mem_insert, Finset.mem_singleton]
        tauto
      · exact (e23 h23).elim
      · refine ⟨i₃, i₂, i₁, h23, h12, h₁, ?_, by rw [g₃, g₂]; exact fun h => hbc h.symm,
          by rw [g₃, g₁]; exact fun h => hac h.symm,
          by rw [g₂, g₁]; exact fun h => hab h.symm⟩
        rw [g₁, g₂, g₃]
        ext y
        simp only [Finset.mem_insert, Finset.mem_singleton]
        tauto

/-- On a sorted array, cell keys identify cells of the built index. -/
theorem index_key_unique (s : Int) (mb : ℕ) (pts : List Pt)
    (hsort : SortedPts s pts) {c c' : CellEntry}
    (hc : c ∈ (build_index s mb pts).cells)
    (hc' : c' ∈ (build_index s mb pts).cells)
    (hx : c.cellX = c'.cellX) (hz : c.cellZ = c'.cellZ) : c = c' := by
  obtain ⟨i, hi, hgi⟩ := List.mem_iff_getElem.mp hc
  obtain ⟨j, hj, hgj⟩ := List.mem_iff_getElem.mp hc'
  rcases Nat.lt_trichotomy i j with hlt | heq | hgt
  · have hp := List.pairwise_iff_getElem.mp
      (index_cells_pairwise_keys s mb pts hsort) i j hi hj hlt
    rw [hgi, hgj] at hp
    exact absurd ⟨hx, hz⟩ hp
  · subst heq
    exact hgi.symm.trans hgj
  · have hp := List.pairwise_iff_getElem.mp
      (index_cells_pairwise_keys s mb pts hsort) j i hj hi hgt
    rw [hgi, hgj] at hp
    exact absurd ⟨hx.symm, hz.symm⟩ hp

/-- A stored point whose cell key lies in the `w`-ring around cell `cb` is
collected by the full neighbor gather of `cb`. -/
theorem mem_gather_full_of_near (s : Int) (mb : ℕ) (pts : List Pt)
    (hsort : SortedPts s pts) (w : ℕ) {cb : CellEntry}
    {x : ℕ} {px : Pt} (hx : pts[x]? = some px)
    (hdx1 : cb.cellX - (w : Int) ≤ coord_to_cell px.x s)
    (hdx2 : coord_to_cell px.x s ≤ cb.cellX + w)
    (hdz1 : cb.cellZ - (w : Int) ≤ coord_to_cell px.z s)
    (hdz2 : coord_to_cell px.z s ≤ cb.cellZ + w) :
    x ∈ gather_full (build_index s mb pts) w cb := by
  obtain ⟨j, c0, hj, hkey, hlo, hhi⟩ := point_in_cell s pts x px hx
  obtain ⟨c1, hc1, hstrip⟩ := index_cell_at s mb pts j c0 hj
  obtain ⟨hkx, hkz, hst, hct⟩ := strip_eq_keys hstrip
  have hc1mem : c1 ∈ (build_index s mb pts).cells := mem_of_getElem hc1
  obtain ⟨c', hfind, hcx', hcz'⟩ := find_cell_complete s mb pts c1 hc1mem
  have hc'mem : c' ∈ (build_index s mb pts).cells := (find_cell_sound _ _ _ _ hfind).1
  have hcc : c' = c1 := index_key_unique s mb pts hsort hc'mem hc1mem hcx' hcz'
  rw [hcc] at hfind
  have hpx : coord_to_cell px.x s = c0.cellX := congrArg Prod.fst hkey
  have hpz : coord_to_cell px.z s = c0.cellZ := congrArg Prod.snd hkey
  rw [gather_full]
  refine List.mem_flatMap.mpr ⟨c1.cellX - cb.cellX,
    mem_offsets.mpr ⟨by omega, by omega⟩, ?_⟩
  refine List.mem_flatMap.mpr ⟨c1.cellZ - cb.cellZ,
    mem_offsets.mpr ⟨by omega, by omega⟩, ?_⟩
  have hqx : cb.cellX + (c1.cellX - cb.cellX) = c1.cellX := by omega
  have hqz : cb.cellZ + (c1.cellZ - cb.cellZ) = c1.cellZ := by omega
  simp only [hqx, hqz, hfind, cellList]
  exact mem_cellIndices.mpr ⟨by omega, by omega⟩

theorem get_coords_at {pts : List Pt} {i : ℕ} {p : Pt} (h : pts[i]? = some p) :
    get_coords pts i = p := by
  rw [get_coords, List.getD_eq_getElem?_getD, h]
  rfl

theorem dist_sq_coords {pts : List Pt} {a b : ℕ} {pa pb : Pt}
    (ha : pts[a]? = some pa) (hb : pts[b]? = some pb) :
    dist_sq_idx pts a b =
      (pa.x - pb.x) * (pa.x - pb.x) + (pa.z - pb.z) * (pa.z - pb.z) := by
  simp only [dist_sq_idx, get_coords_at ha, get_coords_at hb]

/-- Completeness of the emission: a 3- or 4-element set of stored indices,
pairwise within `2r` and centroid-valid, whose base cell's neighbor gather
and candidate array both fit their buffers, appears among the emitted
sets. -/
theorem emitted_mem_of_complete (pts : List Pt) (r : Int)
    (mult buf_size max_bits : ℕ) (S : Finset ℕ) (b : ℕ)
    (hsort : SortedPts (r * mult) pts) (hr : 1 ≤ r) (hm : 1 ≤ mult)
    (hcard : S.card = 3 ∨ S.card = 4)
    (hlt : ∀ i ∈ S, i < pts.length)
    (hbS : b ∈ S) (hmin : ∀ x ∈ S, b ≤ x)
    (hpair : ∀ i ∈ S, ∀ j ∈ S, i ≠ j → dist_sq_idx pts i j ≤ 4 * (r * r))
    (hvalid : is_valid_group pts (r * r) (S.sort (· ≤ ·)) = true)
    (hgather : ∀ c ∈ (build_index (r * mult) max_bits pts).cells,
      b ∈ cellIndices c →
      (gather_full (build_index (r * mult) max_bits pts) ((mult + 1) / 2 + 1)
        c).length ≤ buf_size)
    (hcand : ∀ c ∈ (build_index (r * mult) max_bits pts).cells,
      b ∈ cellIndices c →
      (candidates_full pts (r * r) b
        (gather (build_index (r * mult) max_bits pts) ((mult + 1) / 2 + 1)
          buf_size c)).length ≤ 4096) :
    S ∈ emitted_sets pts r mult buf_size max_bits := by
  have hblt : b < pts.length := hlt b hbS
  have hpb : pts[b]? = some pts[b] := List.getElem?_eq_getElem hblt
  obtain ⟨j, c0, hj, hkey, hlo, hhi⟩ := point_in_cell (r * mult) pts b pts[b] hpb
  obtain ⟨cb, hcb, hstrip⟩ := index_cell_at (r * mult) max_bits pts j c0 hj
  obtain ⟨hkx, hkz, hst, hct⟩ := strip_eq_keys hstrip
  have hcbmem : cb ∈ (build_index (r * mult) max_bits pts).cells := mem_of_getElem hcb
  have hbin : b ∈ cellIndices cb := mem_cellIndices.mpr ⟨by omega, by omega⟩
  have hgeq : gather (build_index (r * mult) max_bits pts) ((mult + 1) / 2 + 1)
      buf_size cb =
      gather_full (build_index (r * mult) max_bits pts) ((mult + 1) / 2 + 1) cb :=
    List.take_of_length_le (hgather cb hcbmem hbin)
  have hcand4096 := hcand cb hcbmem hbin
  have hbx : cb.cellX = coord_to_cell (pts[b]).x (r * mult) := by
    rw [hkx]
    exact (congrArg Prod.fst hkey).symm
  have hbz : cb.cellZ = coord_to_cell (pts[b]).z (r * mult) := by
    rw [hkz]
    exact (congrArg Prod.snd hkey).symm
  have hw0 : (0 : Int) ≤ ((mult + 1) / 2 + 1 : ℕ) := Int.natCast_nonneg _
  have hmem_cand : ∀ x ∈ S, x ≠ b →
      x ∈ candidates pts (r * r) b
        (gather (build_index (r * mult) max_bits pts) ((mult + 1) / 2 + 1)
          buf_size cb) := by
    intro x hxS hxb
    have hxlt : x < pts.length := hlt x hxS
    have hpx : pts[x]? = some pts[x] := List.getElem?_eq_getElem hxlt
    have hdsq : dist_sq_idx pts b x ≤ 4 * (r * r) :=
      hpair b hbS x hxS (fun h => hxb h.symm)
    have hdco := dist_sq_coords hpb hpx
    have hdx2 : ((pts[x]).x - (pts[b]).x) * ((pts[x]).x - (pts[b]).x) ≤
        4 * (r * r) := by nlinarith [mul_self_nonneg ((pts[b]).z - (pts[x]).z)]
    have hdz2 : ((pts[x]).z - (pts[b]).z) * ((pts[x]).z - (pts[b]).z) ≤
        4 * (r * r) := by nlinarith [mul_self_nonneg ((pts[b]).x - (pts[x]).x)]
    obtain ⟨hx1, hx2⟩ := coord_cell_near hr hm hdx2
    obtain ⟨hz1, hz2⟩ := coord_cell_near hr hm hdz2
    have hgmem : x ∈ gather_full (build_index (r * mult) max_bits pts)
        ((mult + 1) / 2 + 1) cb :=
      mem_gather_full_of_near (r * mult) max_bits pts hsort _ hpx
        (by rw [hbx]; exact hx1) (by rw [hbx]; exact hx2)
        (by rw [hbz]; exact hz1) (by rw [hbz]; exact hz2)
    refine mem_candidates_of_qualifies ?_ ?_ hdsq hcand4096
    · rw [hgeq]
      exact hgmem
    · exact Nat.lt_of_le_of_ne (hmin x hxS) (fun h => hxb h.symm)
  have hbgather : b ∈ gather (build_index (r * mult) max_bits pts)
      ((mult + 1) / 2 + 1) buf_size cb := by
    rw [hgeq]
    exact mem_gather_full_of_near (r * mult) max_bits pts hsort _ hpb
      (by rw [hbx]; omega) (by rw [hbx]; omega)
      (by rw [hbz]; omega) (by rw [hbz]; omega)
  have hTS : ∀ y ∈ S.erase b, y ∈ S := fun y hy => Finset.mem_of_mem_erase hy
  have hTnb : ∀ y ∈ S.erase b, y ≠ b := fun y hy => Finset.ne_of_mem_erase hy
  have hTcand : ∀ y ∈ S.erase b, y ∈ candidates pts (r * r) b
      (gather (build_index (r * mult) max_bits pts) ((mult + 1) / 2 + 1)
        buf_size cb) :=
    fun y hy => hmem_cand y (hTS y hy) (hTnb y hy)
  have hinsert : insert b (S.erase b) = S := Finset.insert_erase hbS
  have hTcard : (S.erase b).card = S.card - 1 := Finset.card_erase_of_mem hbS
  have hgt : ∀ n ∈ candidates pts (r * r) b
      (gather (build_index (r * mult) max_bits pts) ((mult + 1) / 2 + 1)
        buf_size cb), b < n := candidates_gt
  -- find a group list g with g.toFinset = S emitted under base b
  have hmain : ∃ g ∈ base_groups pts (r * r) b
      (candidates pts (r * r) b
        (gather (build_index (r * mult) max_bits pts) ((mult + 1) / 2 + 1)
          buf_size cb)), g.toFinset = S := by
    rcases hcard with h3 | h4
    · obtain ⟨u, v, huv, hTeq⟩ := Finset.card_eq_two.mp (by omega : (S.erase b).card = 2)
      obtain ⟨i, jj, hij, hjlen, hset, hne⟩ := exists_two_positions
        (hTcand u (by rw [hTeq]; simp)) (hTcand v (by rw [hTeq]; simp)) huv
      set cand := candidates pts (r * r) b
        (gather (build_index (r * mult) max_bits pts) ((mult + 1) / 2 + 1)
          buf_size cb) with hcdef
      have hviT : cand.getD i 0 ∈ S.erase b := by
        rw [hTeq, ← hset]
        simp
      have hvjT : cand.getD jj 0 ∈ S.erase b := by
        rw [hTeq, ← hset]
        simp
      have hbi : b < cand.getD i 0 := hgt _ (hTcand _ hviT)
      have hbj : b < cand.getD jj 0 := hgt _ (hTcand _ hvjT)
      have hdist : dist_sq_idx pts (cand.getD i 0) (cand.getD jj 0) ≤ 4 * (r * r) :=
        hpair _ (hTS _ hviT) _ (hTS _ hvjT) hne
      have hgnd : ([b, cand.getD i 0, cand.getD jj 0] : List ℕ).Nodup := by
        refine List.nodup_cons.mpr ⟨?_, List.nodup_cons.mpr ⟨?_, List.nodup_singleton _⟩⟩
        · intro hmem
          rcases List.mem_cons.mp hmem with h | h
          · omega
          · rw [List.mem_singleton] at h
            omega
        · rw [List.mem_singleton]
          exact hne
      have hgto : ([b, cand.getD i 0, cand.getD jj 0] : List ℕ).toFinset = S := by
        ext y
        simp only [List.toFinset_cons, List.toFinset_nil, Finset.mem_insert,
          Finset.mem_singleton, Finset.not_mem_empty, or_false]
        rw [← hinsert, Finset.mem_insert, hTeq, ← hset]
        simp only [Finset.mem_insert, Finset.mem_singleton]
      have hvg : is_valid_group pts (r * r) [b, cand.getD i 0, cand.getD jj 0] = true := by
        rw [is_valid_group_of_toFinset_eq pts (r * r) hgnd
          (Finset.sort_nodup (fun x y : ℕ => x ≤ y) S)
          (by rw [hgto, Finset.sort_toFinset])]
        exact hvalid
      refine ⟨[b, cand.getD i 0, cand.getD jj 0], ?_, hgto⟩
      exact mem_base_groups_iff.mpr ⟨by omega,
        Or.inr (mem_groups3_iff.mpr ⟨i, jj, hij, hjlen, hdist, hvg, rfl⟩)⟩
    · obtain ⟨u, v, t, huv, hut, hvt, hTeq⟩ :=
        Finset.card_eq_three.mp (by omega : (S.erase b).card = 3)
      obtain ⟨i, jj, k, hij, hjk, hklen, hset, hne1, hne2, hne3⟩ :=
        exists_three_positions
          (hTcand u (by rw [hTeq]; simp)) (hTcand v (by rw [hTeq]; simp))
          (hTcand t (by rw [hTeq]; simp)) huv hut hvt
      set cand := candidates pts (r * r) b
        (gather (build_index (r * mult) max_bits pts) ((mult + 1) / 2 + 1)
          buf_size cb) with hcdef
      have hviT : cand.getD i 0 ∈ S.erase b := by
        rw [hTeq, ← hset]
        simp
      have hvjT : cand.getD jj 0 ∈ S.erase b := by
        rw [hTeq, ← hset]
        simp
      have hvkT : cand.getD k 0 ∈ S.erase b := by
        rw [hTeq, ← hset]
        simp
      have hbi : b < cand.getD i 0 := hgt _ (hTcand _ hviT)
      have hbj : b < cand.getD jj 0 := hgt _ (hTcand _ hvjT)
      have hbk : b < cand.getD k 0 := hgt _ (hTcand _ hvkT)
      have hd1 : dist_sq_idx pts (cand.getD i 0) (cand.getD jj 0) ≤ 4 * (r * r) :=
        hpair _ (hTS _ hviT) _ (hTS _ hvjT) hne1
      have hd2 : dist_sq_idx pts (cand.getD i 0) (cand.getD k 0) ≤ 4 * (r * r) :=
        hpair _ (hTS _ hviT) _ (hTS _ hvkT) hne2
      have hd3 : dist_sq_idx pts (cand.getD jj 0) (cand.getD k 0) ≤ 4 * (r * r) :=
        hpair _ (hTS _ hvjT) _ (hTS _ hvkT) hne3
      have hgnd : ([b, cand.getD i 0, cand.getD jj 0, cand.getD k 0] : List ℕ).Nodup := by
        refine List.nodup_cons.mpr ⟨?_, List.nodup_cons.mpr ⟨?_,
          List.nodup_cons.mpr ⟨?_, List.nodup_singleton _⟩⟩⟩
        · intro hmem
          rcases List.mem_cons.mp hmem with h | h
          · omega
          · rcases List.mem_cons.mp h with h' | h'
            · omega
            · rw [List.mem_singleton] at h'
              omega
        · intro hmem
          rcases List.mem_cons.mp hmem with h | h
          · exact hne1 h
          · rw [List.mem_singleton] at h
            exact hne2 h
        · rw [List.mem_singleton]
          exact hne3
      have hgto : ([b, cand.getD i 0, cand.getD jj 0, cand.getD k 0] : List ℕ).toFinset
          = S := by
        ext y
        simp only [List.toFinset_cons, List.toFinset_nil, Finset.mem_insert,
          Finset.mem_singleton, Finset.not_mem_empty, or_false]
        rw [← hinsert, Finset.mem_insert, hTeq, ← hset]
        simp only [Finset.mem_insert, Finset.mem_singleton]
      have hvg : is_valid_group pts (r * r)
          [b, cand.getD i 0, cand.getD jj 0, cand.getD k 0] = true := by
        rw [is_valid_group_of_toFinset_eq pts (r * r) hgnd
          (Finset.sort_nodup (fun x y : ℕ => x ≤ y) S)
          (by rw [hgto, Finset.sort_toFinset])]
        exact hvalid
      refine ⟨[b, cand.getD i 0, cand.getD jj 0, cand.getD k 0], ?_, hgto⟩
      exact mem_base_groups_iff.mpr ⟨by omega,
        Or.inl (mem_groups4_iff.mpr ⟨i, jj, k, hij, hjk, hklen, hd1, hd2, hd3, hvg, rfl⟩)⟩
  obtain ⟨g, hgbase, hgto⟩ := hmain
  -- the gather holds at least three distinct indices
  have hglen : 3 ≤ (gather (build_index (r * mult) max_bits pts)
      ((mult + 1) / 2 + 1) buf_size cb).length := by
    obtain ⟨x, hxS, hxb⟩ : ∃ x ∈ S, x ≠ b := by
      by_contra hcon
      push_neg at hcon
      have hsub : S ⊆ {b} := fun y hy => Finset.mem_singleton.mpr (hcon y hy)
      have := Finset.card_le_card hsub
      rw [Finset.card_singleton] at this
      omega
    obtain ⟨y, hyS, hyb, hyx⟩ : ∃ y ∈ S, y ≠ b ∧ y ≠ x := by
      by_contra hcon
      push_neg at hcon
      have hsub : S ⊆ {b, x} := by
        intro z hz
        rcases eq_or_ne z b with rfl | hzb
        · simp
        · rcases eq_or_ne z x with rfl | hzx
          · simp
          · exact absurd hzx (not_ne_iff.mpr (hcon z hz hzb))
      have := Finset.card_le_card hsub
      have : ({b, x} : Finset ℕ).card ≤ 2 := Finset.card_insert_le _ _ |>.trans
        (by rw [Finset.card_singleton])
      omega
    have hxg := (mem_candidates (hmem_cand x hxS hxb)).1
    have hyg := (mem_candidates (hmem_cand y hyS hyb)).1
    have hbx' : b < x := Nat.lt_of_le_of_ne (hmin x hxS) (fun h => hxb h.symm)
    have hby' : b < y := Nat.lt_of_le_of_ne (hmin y hyS) (fun h => hyb h.symm)
    have hsub : ({b, x, y} : Finset ℕ) ⊆ (gather (build_index (r * mult) max_bits pts)
        ((mult + 1) / 2 + 1) buf_size cb).toFinset := by
      intro z hz
      rcases Finset.mem_insert.mp hz with rfl | hz'
      · exact List.mem_toFinset.mpr hbgather
      · rcases Finset.mem_insert.mp hz' with rfl | hz''
        · exact List.mem_toFinset.mpr hxg
        · rw [Finset.mem_singleton] at hz''
          subst hz''
          exact List.mem_toFinset.mpr hyg
    have hc3 : ({b, x, y} : Finset ℕ).card = 3 := by
      rw [Finset.card_insert_of_not_mem (by
        simp only [Finset.mem_insert, Finset.mem_singleton]
        omega), Finset.card_insert_of_not_mem (by
        simp only [Finset.mem_singleton]
        exact fun h => hyx h.symm), Finset.card_singleton]
    have h1 := Finset.card_le_card hsub
    have h2 := List.toFinset_card_le (gather (build_index (r * mult) max_bits pts)
      ((mult + 1) / 2 + 1) buf_size cb)
    omega
  -- assemble the emission
  have hci : b - cb.start < cb.count := by omega
  have hbb : cb.start + (b - cb.start) = b := by omega
  have hcell : g ∈ find_groups_in_cell (build_index (r * mult) max_bits pts)
      (r * r) ((mult + 1) / 2 + 1) buf_size cb := by
    refine mem_find_groups_in_cell_iff.mpr ⟨hglen, b - cb.start, hci, ?_⟩
    rw [build_index_pts, hbb]
    exact hgbase
  rw [emitted_sets, run_groups]
  exact List.mem_map.mpr ⟨g, mem_all_groups_iff.mpr ⟨cb, hcbmem, hcell⟩, hgto⟩

/-- **Claim C1 (amended).** Completeness of enumeration: every 3- or
4-element subset `S` of stored point indices in which every pair lies
within squared distance `4r²` and which satisfies the centroid containment
predicate is emitted exactly once — provided the neighbor gather for the
cell of `S`'s minimum index `b` did not truncate its buffer, and (the
amendment, without which the claim is false:
`enumeration_cap_counterexample`) the candidate array of base `b` did not
truncate at its 4096-entry capacity. -/
theorem enumeration_complete (pts : List Pt) (r : Int)
    (mult buf_size max_bits : ℕ) (S : Finset ℕ) (b : ℕ)
    (hsort : SortedPts (r * mult) pts) (hr : 1 ≤ r) (hm : 1 ≤ mult)
    (hcard : S.card = 3 ∨ S.card = 4)
    (hlt : ∀ i ∈ S, i < pts.length)
    (hbS : b ∈ S) (hmin : ∀ x ∈ S, b ≤ x)
    (hpair : ∀ i ∈ S, ∀ j ∈ S, i ≠ j → dist_sq_idx pts i j ≤ 4 * (r * r))
    (hvalid : is_valid_group pts (r * r) (S.sort (· ≤ ·)) = true)
    (hgather : ∀ c ∈ (build_index (r * mult) max_bits pts).cells,
      b ∈ cellIndices c →
      (gather_full (build_index (r * mult) max_bits pts) ((mult + 1) / 2 + 1)
        c).length ≤ buf_size)
    (hcand : ∀ c ∈ (build_index (r * mult) max_bits pts).cells,
      b ∈ cellIndices c →
      (candidates_full pts (r * r) b
        (gather (build_index (r * mult) max_bits pts) ((mult + 1) / 2 + 1)
          buf_size c)).length ≤ 4096) :
    List.count S (emitted_sets pts r mult buf_size max_bits) = 1 := by
  have hmem := emitted_mem_of_complete pts r mult buf_size max_bits S b hsort hr hm
    hcard hlt hbS hmin hpair hvalid hgather hcand
  have hnd : (emitted_sets pts r mult buf_size max_bits).Nodup := by
    rw [emitted_sets, run_groups]
    exact all_sets_nodup (r * mult) max_bits pts (r * r) ((mult + 1) / 2 + 1) buf_size
  exact List.count_eq_one_of_mem hnd hmem

/-- Witness for the amended C1: the triangle fit at radius 2 is emitted
exactly once. -/
theorem enumeration_complete_witness :
    is_valid_group [⟨0, 0⟩, ⟨1, 1⟩, ⟨2, 0⟩] (2 * 2)
      (({0, 1, 2} : Finset ℕ).sort (· ≤ ·)) = true ∧
    List.count ({0, 1, 2} : Finset ℕ)
      (emitted_sets [⟨0, 0⟩, ⟨1, 1⟩, ⟨2, 0⟩] 2 1 262144 27) = 1 :=
  have hseq : (({0, 1, 2} : Finset ℕ).sort (· ≤ ·)).toFinset =
      ([0, 1, 2] : List ℕ).toFinset := by
    rw [Finset.sort_toFinset]
    decide
  have hval : is_valid_group [⟨0, 0⟩, ⟨1, 1⟩, ⟨2, 0⟩] (2 * 2)
      (({0, 1, 2} : Finset ℕ).sort (· ≤ ·)) =
      is_valid_group [⟨0, 0⟩, ⟨1, 1⟩, ⟨2, 0⟩] (2 * 2) [0, 1, 2] :=
    is_valid_group_of_toFinset_eq _ _ (Finset.sort_nodup _ _) (by decide) hseq
  ⟨by rw [hval]; decide,
    enumeration_complete [⟨0, 0⟩, ⟨1, 1⟩, ⟨2, 0⟩] 2 1 262144 27
      {0, 1, 2} 0 (by decide) (by decide) (by decide) (by decide) (by decide)
      (by decide) (by decide) (by decide) (by rw [hval]; decide)
      (by decide) (by decide)⟩

/-- A run of `n + 1` coincident points scans to a single cell of count
`n + 1`. -/
theorem buildCellsFrom_replicate (s : Int) (p : Pt) :
    ∀ n k : ℕ, buildCellsFrom s (List.replicate (n + 1) p) k =
      [⟨(cellKey s p).1, (cellKey s p).2, k, n + 1, 0⟩] := by
  intro n
  induction n with
  | zero =>
    intro k
    rw [List.replicate_succ]
    simp only [buildCellsFrom, List.replicate, consCell]
  | succ n ih =>
    intro k
    rw [List.replicate_succ]
    rw [show buildCellsFrom s (p :: List.replicate (n + 1) p) k =
      consCell (cellKey s p) k (buildCellsFrom s (List.replicate (n + 1) p) (k + 1))
      from rfl]
    rw [ih (k + 1)]
    simp [consCell]

/-- Filtering the positives out of `range (n+1)` leaves `range' 1 n`. -/
theorem filter_pos_range (n : ℕ) :
    (List.range (n + 1)).filter (fun m => decide (0 < m)) = List.range' 1 n := by
  rw [List.range_succ_eq_map, List.filter_cons_of_neg (by decide), List.filter_map]
  rw [show (fun m => decide (0 < m)) ∘ Nat.succ = fun a => decide (0 < a + 1) from rfl]
  rw [List.filter_eq_self.mpr (fun a _ => by simp)]
  rw [List.range'_eq_map_range]
  exact List.map_congr_left fun a _ => by omega

set_option maxRecDepth 10000 in
/-- **Counterexample to C1 as stated.** With 4098 coincident points at the
origin (radius 1, multiplier 1, neighbor buffer 262144) every hypothesis of
the claim holds for the subset `{0, 1, 2, 4097}` — 4 stored indices,
pairwise within `2r`, centroid-valid, and the neighbor gather of the base
cell fits its buffer — yet the subset is never emitted: base 0 has 4097
qualifying neighbors, its candidate array truncates at 4096 entries, and
index 4097 is dropped. -/
theorem enumeration_cap_counterexample :
    (SortedPts (1 * 1) (List.replicate 4098 (⟨0, 0⟩ : Pt)) ∧
      ({0, 1, 2, 4097} : Finset ℕ).card = 4 ∧
      (∀ i ∈ ({0, 1, 2, 4097} : Finset ℕ),
        i < (List.replicate 4098 (⟨0, 0⟩ : Pt)).length) ∧
      0 ∈ ({0, 1, 2, 4097} : Finset ℕ) ∧
      (∀ x ∈ ({0, 1, 2, 4097} : Finset ℕ), 0 ≤ x) ∧
      (∀ i ∈ ({0, 1, 2, 4097} : Finset ℕ), ∀ j ∈ ({0, 1, 2, 4097} : Finset ℕ),
        i ≠ j →
        dist_sq_idx (List.replicate 4098 (⟨0, 0⟩ : Pt)) i j ≤ 4 * (1 * 1)) ∧
      is_valid_group (List.replicate 4098 (⟨0, 0⟩ : Pt)) (1 * 1)
        (({0, 1, 2, 4097} : Finset ℕ).sort (· ≤ ·)) = true ∧
      (∀ c ∈ (build_index 1 1 (List.replicate 4098 (⟨0, 0⟩ : Pt))).cells,
        0 ∈ cellIndices c →
        (gather_full (build_index 1 1 (List.replicate 4098 (⟨0, 0⟩ : Pt))) 2
          c).length ≤ 262144)) ∧
    List.count ({0, 1, 2, 4097} : Finset ℕ)
      (emitted_sets (List.replicate 4098 (⟨0, 0⟩ : Pt)) 1 1 262144 1) = 0 := by
  have hcoords : ∀ i : ℕ,
      get_coords (List.replicate 4098 (⟨0, 0⟩ : Pt)) i = ⟨0, 0⟩ := by
    intro i
    rw [get_coords, List.getD_eq_getElem?_getD, List.getElem?_replicate]
    by_cases h : i < 4098
    · rw [if_pos h]
      rfl
    · rw [if_neg h]
      rfl
  have hdist0 : ∀ i j : ℕ,
      dist_sq_idx (List.replicate 4098 (⟨0, 0⟩ : Pt)) i j = 0 := by
    intro i j
    simp only [dist_sq_idx, hcoords]
    rfl
  have hvalall : ∀ rsq : Int, 0 ≤ rsq → ∀ l : List ℕ,
      is_valid_group (List.replicate 4098 (⟨0, 0⟩ : Pt)) rsq l = true := by
    intro rsq hrsq l
    rw [is_valid_group, List.all_eq_true]
    intro i hi
    have hsx : (l.map fun i =>
        (get_coords (List.replicate 4098 (⟨0, 0⟩ : Pt)) i).x).sum = 0 := by
      have h1 : (l.map fun i =>
          (get_coords (List.replicate 4098 (⟨0, 0⟩ : Pt)) i).x) =
          l.map fun _ => (0 : Int) :=
        List.map_congr_left fun a _ => by rw [hcoords a]
      rw [h1, List.map_const', List.sum_replicate, smul_zero]
    have hsz : (l.map fun i =>
        (get_coords (List.replicate 4098 (⟨0, 0⟩ : Pt)) i).z).sum = 0 := by
      have h1 : (l.map fun i =>
          (get_coords (List.replicate 4098 (⟨0, 0⟩ : Pt)) i).z) =
          l.map fun _ => (0 : Int) :=
        List.map_congr_left fun a _ => by rw [hcoords a]
      rw [h1, List.map_const', List.sum_replicate, smul_zero]
    simp only [decide_eq_true_eq, hsx, hsz, hcoords i]
    show ((l.length : Int) * 0 - 0) ^ 2 + ((l.length : Int) * 0 - 0) ^ 2 ≤
      rsq * (l.length : Int) ^ 2
    have h2 : (0 : Int) ≤ rsq * (l.length : Int) ^ 2 :=
      mul_nonneg hrsq (sq_nonneg _)
    nlinarith
  have hcells0 : buildCellsFrom 1 (List.replicate 4098 (⟨0, 0⟩ : Pt)) 0 =
      [⟨0, 0, 0, 4098, 0⟩] := buildCellsFrom_replicate 1 ⟨0, 0⟩ 4097 0
  have hcells : (build_index 1 1 (List.replicate 4098 (⟨0, 0⟩ : Pt))).cells =
      [⟨0, 0, 0, 4098, 0⟩] := by
    simp only [build_index]
    rw [hcells0]
    simp only [insert_cells]
  have hc0mem : (⟨0, 0, 0, 4098, 0⟩ : CellEntry) ∈
      (build_index 1 1 (List.replicate 4098 (⟨0, 0⟩ : Pt))).cells := by
    rw [hcells]
    exact List.mem_singleton.mpr rfl
  have hsome0 : find_cell (build_index 1 1 (List.replicate 4098 (⟨0, 0⟩ : Pt))) 0 0 =
      some ⟨0, 0, 0, 4098, 0⟩ := by
    obtain ⟨c', hf, hx, hz⟩ := find_cell_complete 1 1 _ ⟨0, 0, 0, 4098, 0⟩ hc0mem
    have hc'm := (find_cell_sound _ _ _ _ hf).1
    rw [hcells, List.mem_singleton] at hc'm
    subst hc'm
    exact hf
  have hnone : ∀ qx qz : Int, ¬(qx = 0 ∧ qz = 0) →
      find_cell (build_index 1 1 (List.replicate 4098 (⟨0, 0⟩ : Pt))) qx qz =
        none := by
    intro qx qz hq
    cases hf : find_cell (build_index 1 1 (List.replicate 4098 (⟨0, 0⟩ : Pt))) qx qz with
    | none => rfl
    | some c =>
      obtain ⟨hm, hx, hz⟩ := find_cell_sound _ _ _ _ hf
      rw [hcells, List.mem_singleton] at hm
      subst hm
      exact absurd ⟨hx.symm, hz.symm⟩ hq
  have hcellIdx : cellIndices ⟨0, 0, 0, 4098, 0⟩ = List.range 4098 := by
    rw [cellIndices]
    have h1 : ∀ a ∈ List.range (⟨0, 0, 0, 4098, 0⟩ : CellEntry).count,
        (⟨0, 0, 0, 4098, 0⟩ : CellEntry).start + a = (fun a => a) a :=
      fun a _ => Nat.zero_add a
    rw [List.map_congr_left h1, List.map_id']
  have hcomp : ∀ qx qz : Int,
      cellList (find_cell (build_index 1 1 (List.replicate 4098 (⟨0, 0⟩ : Pt)))
        qx qz) = if qx = 0 ∧ qz = 0 then List.range 4098 else [] := by
    intro qx qz
    by_cases h : qx = 0 ∧ qz = 0
    · obtain ⟨rfl, rfl⟩ := h
      rw [if_pos ⟨rfl, rfl⟩, hsome0]
      simp only [cellList]
      exact hcellIdx
    · rw [if_neg h, hnone qx qz h]
      rfl
  have hgfull : gather_full (build_index 1 1 (List.replicate 4098 (⟨0, 0⟩ : Pt))) 2
      ⟨0, 0, 0, 4098, 0⟩ = List.range 4098 := by
    rw [gather_full]
    simp only [show (⟨0, 0, 0, 4098, 0⟩ : CellEntry).cellX = 0 from rfl,
      show (⟨0, 0, 0, 4098, 0⟩ : CellEntry).cellZ = 0 from rfl, zero_add, hcomp,
      show offsets 2 = [-2, -1, 0, 1, 2] from by decide,
      List.flatMap_cons, List.flatMap_nil]
    norm_num
  have hgv : gather (build_index 1 1 (List.replicate 4098 (⟨0, 0⟩ : Pt))) 2 262144
      ⟨0, 0, 0, 4098, 0⟩ = List.range 4098 := by
    rw [gather, hgfull]
    exact List.take_of_length_le (by rw [List.length_range]; norm_num)
  have hcv : candidates (List.replicate 4098 (⟨0, 0⟩ : Pt)) 1 0 (List.range 4098) =
      List.range' 1 4096 := by
    rw [candidates, candidates_full]
    have hpred : ∀ n ∈ List.range 4098,
        (decide ((0 : ℕ) < n ∧
          dist_sq_idx (List.replicate 4098 (⟨0, 0⟩ : Pt)) 0 n ≤ 4 * 1)) =
        decide ((0 : ℕ) < n) := by
      intro n hn
      refine decide_eq_decide.mpr ?_
      rw [hdist0]
      exact ⟨fun h => h.1, fun h => ⟨h, by norm_num⟩⟩
    rw [List.filter_congr hpred]
    rw [show (4098 : ℕ) = 4097 + 1 from rfl, filter_pos_range]
    have happ : List.range' 1 4096 ++ List.range' 4097 1 = List.range' 1 4097 := by
      have h := List.range'_append 1 4096 1 1
      norm_num at h
      exact h
    rw [← happ]
    exact List.take_left' (by rw [List.length_range'])
  refine ⟨⟨List.pairwise_replicate.mpr (Or.inr (by decide)), by decide, ?_,
    by decide, fun x _ => Nat.zero_le x, ?_, hvalall (1 * 1) (by norm_num) _,
    ?_⟩, ?_⟩
  · intro i hi
    rw [List.length_replicate]
    fin_cases hi <;> norm_num
  · intro i hi j hj hij
    rw [hdist0]
    norm_num
  · intro c hc h0
    rw [hcells, List.mem_singleton] at hc
    subst hc
    rw [hgfull, List.length_range]
    norm_num
  · rw [List.count_eq_zero]
    intro hmem
    rw [emitted_sets, run_groups] at hmem
    rw [show ((1 : Int) * ((1 : ℕ) : Int)) = 1 from by norm_num,
      show ((1 : Int) * (1 : Int)) = 1 from by norm_num,
      show (((1 : ℕ) + 1) / 2 + 1 : ℕ) = 2 from by norm_num] at hmem
    obtain ⟨g, hg, hgto⟩ := List.mem_map.mp hmem
    obtain ⟨c, hcmem, hcell⟩ := mem_all_groups_iff.mp hg
    rw [hcells, List.mem_singleton] at hcmem
    subst hcmem
    obtain ⟨-, ci, hci, hbase⟩ := mem_find_groups_in_cell_iff.mp hcell
    rw [build_index_pts,
      show (⟨0, 0, 0, 4098, 0⟩ : CellEntry).start = 0 from rfl,
      Nat.zero_add] at hbase
    obtain ⟨-, -, rest, hrweq, hrest⟩ := base_groups_shape
      (candidates_nodup (gather_nodup 1 1 (List.replicate 4098 (⟨0, 0⟩ : Pt)) 2
        262144 ⟨0, 0, 0, 4098, 0⟩)) candidates_gt hbase
    have h0g : (0 : ℕ) ∈ g := by
      rw [← List.mem_toFinset, hgto]
      decide
    have h4097g : (4097 : ℕ) ∈ g := by
      rw [← List.mem_toFinset, hgto]
      decide
    rw [hrweq] at h0g h4097g
    have hci0 : ci = 0 := by
      rcases List.mem_cons.mp h0g with h0 | h0
      · omega
      · have := (hrest 0 h0).2
        omega
    subst hci0
    rcases List.mem_cons.mp h4097g with h4 | h4
    · omega
    · have h4c := (hrest 4097 h4).1
      rw [hgv, hcv] at h4c
      rw [List.mem_range'_1] at h4c
      omega

end GroupFinder
